import Mathlib

set_option maxRecDepth 40000

/-
Shallow embedding of src/str8t.py: the DC-5 box enumerator/filter, the
permutation scorer with its tie-break selector, and the output ranker.

Conventions of the embedding:

* Python floats are embedded as exact rationals.  A score is a `Frac`: an
  integer numerator with a positive denominator stored in the field `d` as
  the denominator minus one, so positivity of denominators is structural,
  every comparison is a decidable integer comparison, and concrete runs
  evaluate by `decide`.  `Frac.val` maps a `Frac` to `ℚ`; order and field
  reasoning is carried out there.  The numeric literals of the source
  (1.0, -1.0, 1e-15, 99.5, ...) are the corresponding exact rationals.
* Digit strings are kept as lists of digits.  Two rendered five-digit
  strings compare lexicographically exactly as their digit lists, so the
  string comparisons of the source (the `min` over tied permutations and
  the sort key) are embedded as the lexicographic order `lexLt` on digit
  lists; `render` produces the actual string at the output boundary.
* `Frac.div` embeds Python `/`; the source only divides by 100.0 and by a
  sum it has checked to be positive, and the definition is faithful for
  every positive divisor.
* The free-text profile parser is an external collaborator per the spec;
  the driver consumes its outcome, embedded as `Option (Except ...)`:
  `none` for no text supplied, `some (Except.error e)` for a parse failure
  caught by the guard around `parse_positional_stats`, `some (Except.ok p)`
  for a parsed profile of five rows.
-/

structure Frac where
  num : Int
  d : Nat
deriving DecidableEq

def Frac.den (f : Frac) : Int := (f.d : Int) + 1

/-- The fraction n / den (for den ≥ 1; `fr n 0` is read as n / 1). -/
def fr (n : Int) (den : Nat) : Frac := ⟨n, den - 1⟩

def Frac.add (f g : Frac) : Frac :=
  ⟨f.num * g.den + g.num * f.den, (f.d + 1) * (g.d + 1) - 1⟩

def Frac.sub (f g : Frac) : Frac :=
  ⟨f.num * g.den - g.num * f.den, (f.d + 1) * (g.d + 1) - 1⟩

def Frac.mul (f g : Frac) : Frac :=
  ⟨f.num * g.num, (f.d + 1) * (g.d + 1) - 1⟩

/-- Division; faithful to Python `/` whenever the divisor is positive
(the source divides only by 100.0 and by a sum guarded by `s > 0`). -/
def Frac.div (f g : Frac) : Frac :=
  ⟨f.num * g.den, (f.d + 1) * g.num.toNat - 1⟩

def Frac.abs (f : Frac) : Frac := ⟨|f.num|, f.d⟩

def Frac.lt (f g : Frac) : Prop := f.num * g.den < g.num * f.den

def Frac.le (f g : Frac) : Prop := f.num * g.den ≤ g.num * f.den

/-- Value equality (float `==` of the source). -/
def Frac.eqv (f g : Frac) : Prop := f.num * g.den = g.num * f.den

instance (f g : Frac) : Decidable (Frac.lt f g) :=
  inferInstanceAs (Decidable (_ < _))

instance (f g : Frac) : Decidable (Frac.le f g) :=
  inferInstanceAs (Decidable (_ ≤ _))

instance (f g : Frac) : Decidable (Frac.eqv f g) :=
  inferInstanceAs (Decidable (_ = _))

/-- The rational value of a `Frac`; all order reasoning happens in ℚ. -/
def Frac.val (f : Frac) : ℚ := (f.num : ℚ) / ((f.d : ℚ) + 1)

/-- EPS = 1e-15, the numeric tie tolerance of the source (line 22). -/
def EPS : Frac := fr 1 (10 ^ 15)

/-- Lexicographic comparison of digit lists: exactly the `<` of the
five-character digit strings the source compares. -/
def lexLt : List Nat → List Nat → Bool
  | [], [] => false
  | [], _ :: _ => true
  | _ :: _, [] => false
  | a :: as, b :: bs => if a < b then true else if b < a then false else lexLt as bs

/-- The Constraint Set: the validated sidebar inputs the core consumes. -/
structure ConstraintSet where
  sum_min : Nat
  sum_max : Nat
  low_max : Nat
  min_low : Nat
  max_low : Nat
  min_high : Nat
  max_high : Nat
  min_even : Nat
  max_even : Nat
  min_odd : Nat
  max_odd : Nat
  mand_digits : List Nat
  forbid_digits : List Nat
  allow_quints : Bool
  allow_quads : Bool
  allow_triples : Bool
  allow_dd : Bool
  allow_runs4p : Bool

/-- One layer of `cwr`: given the recursive call for k, build the lists of
length k+1 drawn from the suffixes of `digits`. -/
def cwrGo (rec : List Nat → List (List Nat)) : List Nat → List (List Nat)
  | [] => []
  | dd :: ds => ((rec (dd :: ds)).map (fun t => dd :: t)) ++ cwrGo rec ds

def cwrK : Nat → List Nat → List (List Nat)
  | 0, _ => [[]]
  | k + 1, digits => cwrGo (cwrK k) digits

/-- `itertools.combinations_with_replacement(digits, k)` in its enumeration
order (lexicographic over non-decreasing index sequences). -/
def cwr (digits : List Nat) (k : Nat) : List (List Nat) := cwrK k digits

/-- The candidate boxes: `combinations_with_replacement(range(10), 5)`. -/
def allCandidates : List (List Nat) := cwr (List.range 10) 5

/-- The length recurrence of `cwrGo` on the length of the digit list. -/
def cwrLenGo (rec : Nat → Nat) : Nat → Nat
  | 0 => 0
  | n + 1 => rec (n + 1) + cwrLenGo rec n

/-- The number of combinations with replacement: `cwrLen k n` is the length
of `cwr digits k` for any `digits` of length n. -/
def cwrLen : Nat → Nat → Nat
  | 0, _ => 1
  | k + 1, n => cwrLenGo (cwrLen k) n

/-- `Counter(comb).values()`: the multiset of digit multiplicities. -/
def countVals (comb : List Nat) : List Nat :=
  comb.dedup.map (fun dd => comb.count dd)

/-- Lines 59-70 of the source. -/
def violates_patterns (counts : List Nat)
    (allow_quints allow_quads allow_triples allow_double_doubles : Bool) : Bool :=
  if !allow_quints && counts.any (fun v => v == 5) then true
  else if !allow_quads && counts.any (fun v => v == 4) then true
  else if !allow_triples && counts.any (fun v => v == 3) then true
  else if !allow_double_doubles && decide (2 ≤ counts.countP (fun v => v == 2)) then true
  else false

def insertNat (x : Nat) : List Nat → List Nat
  | [] => [x]
  | y :: ys => if x ≤ y then x :: y :: ys else y :: insertNat x ys

/-- Python `sorted` on a list of naturals (ascending). -/
def sortNat (l : List Nat) : List Nat := l.foldr insertNat []

/-- One step of the loop of `longest_consecutive_run_length`:
state is (previous element, current run, best run). -/
def runStep (st : Nat × Nat × Nat) (x : Nat) : Nat × Nat × Nat :=
  if x = st.1 + 1 then (x, st.2.1 + 1, max st.2.2 (st.2.1 + 1)) else (x, 1, st.2.2)

/-- Lines 48-57 of the source. -/
def longest_consecutive_run_length (uniq_sorted : List Nat) : Nat :=
  match uniq_sorted with
  | [] => 0
  | x :: xs => (xs.foldl runStep (x, 1, 1)).2.2

/-- The local `lows` of the loop: digits ≤ low_max (line 306). -/
def lowsOf (cs : ConstraintSet) (box : List Nat) : Nat :=
  box.countP (fun dd => decide (dd ≤ cs.low_max))

/-- The local `evens` of the loop: digits with d % 2 == 0 (line 302). -/
def evensOf (box : List Nat) : Nat := box.countP (fun dd => dd % 2 == 0)

/-- The continue-chain of the enumeration loop (lines 291-328): `true` iff
the candidate box survives every filter. -/
def keepBox (cs : ConstraintSet) (comb : List Nat) : Bool :=
  if !cs.forbid_digits.isEmpty && comb.any (fun dd => cs.forbid_digits.contains dd) then false
  else if !(decide (cs.sum_min ≤ comb.sum) && decide (comb.sum ≤ cs.sum_max)) then false
  else if !(decide (cs.min_low ≤ lowsOf cs comb) && decide (lowsOf cs comb ≤ cs.max_low)) then
    false
  else if !(decide (cs.min_high ≤ 5 - lowsOf cs comb)
      && decide (5 - lowsOf cs comb ≤ cs.max_high)) then false
  else if !(decide (cs.min_even ≤ evensOf comb) && decide (evensOf comb ≤ cs.max_even)) then
    false
  else if !(decide (cs.min_odd ≤ 5 - evensOf comb)
      && decide (5 - evensOf comb ≤ cs.max_odd)) then false
  else if !cs.mand_digits.isEmpty && !(cs.mand_digits.any (fun dd => comb.contains dd)) then false
  else if violates_patterns (countVals comb) cs.allow_quints cs.allow_quads
      cs.allow_triples cs.allow_dd then false
  else if !cs.allow_runs4p
      && decide (4 ≤ longest_consecutive_run_length (sortNat comb.dedup)) then false
  else true

/-- The Box Enumerator/Filter: (kept boxes in enumeration order, total). -/
def generate_boxes (cs : ConstraintSet) : List (List Nat) × Nat :=
  (allCandidates.filter (fun comb => keepBox cs comb), allCandidates.length)

/-- A probability row of ten zeros: `[0.0]*10`, the default of
`pos_probs.get(i, [0.0]*10)`. -/
def zeroRow : List Frac := List.replicate 10 (fr 0 1)

/-- Lines 138-142: the product score of a straight.  Position i of the
Python dict (keys 1..5) is row i-1 of the profile list. -/
def straight_score (straight : List Nat) (pos_probs : List (List Frac)) : Frac :=
  (straight.enum.map (fun p => (pos_probs.getD p.1 zeroRow).getD p.2 (fr 0 1))).foldl
    Frac.mul (fr 1 1)

/-- `set(permutations(box))`: the distinct permutations of the box, each
exactly once.  Python iterates the set in an unspecified order; the
embedding fixes the order of `List.permutations'`. -/
def distinctPerms (box : List Nat) : List (List Nat) :=
  box.permutations'.dedup

/-- One iteration of the best-score loop (lines 344-350); `sc` is
`straight_score perm probs`. -/
def scoreStep (probs : List (List Frac)) (st : Frac × List (List Nat))
    (perm : List Nat) : Frac × List (List Nat) :=
  if Frac.lt (st.1.add EPS) (straight_score perm probs) then (straight_score perm probs, [perm])
  else if Frac.le ((straight_score perm probs).sub st.1).abs EPS then (st.1, st.2 ++ [perm])
  else st

/-- The loop of lines 340-350: (best_score, best_perms), starting from
best_score = -1.0, best_perms = []. -/
def bestOf (probs : List (List Frac)) (box : List Nat) : Frac × List (List Nat) :=
  (distinctPerms box).foldl (scoreStep probs) (fr (-1) 1, [])

/-- `pos_vals[i]` (lines 360-363): the distinct digits at position i across
the tied best permutations. -/
def posVals (bp : List (List Nat)) (i : Nat) : List Nat :=
  (bp.map (fun p => p.getD i 0)).dedup

/-- `multi_positions` (line 365). -/
def multiPositions (bp : List (List Nat)) : List Nat :=
  (List.range 5).filter (fun i => decide (1 < (posVals bp i).length))

/-- The `variants` dict loop (lines 369-375): first representative per
key, stopping once two keys are collected (the key is `p.getD idx 0`). -/
def collectVariants (idx : Nat) : List (List Nat) → List (Nat × List Nat) → List (Nat × List Nat)
  | [], acc => acc
  | p :: rest, acc =>
      if (acc.map Prod.fst).contains (p.getD idx 0) then
        (if acc.length == 2 then acc else collectVariants idx rest acc)
      else
        (if (acc ++ [(p.getD idx 0, p)]).length == 2 then acc ++ [(p.getD idx 0, p)]
         else collectVariants idx rest (acc ++ [(p.getD idx 0, p)]))

/-- Python `min` over a nonempty list (first minimal element kept). -/
def listMin (x : List Nat) (xs : List (List Nat)) : List Nat :=
  xs.foldl (fun acc y => if lexLt y acc then y else acc) x

/-- The canonical single output of lines 379-381: the lexicographically
smallest tied permutation.  The nil case is unreachable there: a best
score above EPS forces a nonempty tied set. -/
def selectOne (bp : List (List Nat)) (best : Frac) : List (List Nat × Frac) :=
  match bp with
  | [] => []
  | p :: ps => [(listMin p ps, best)]

/-- Lines 339-383: the straights emitted for one kept box
(`best_score` is `(bestOf probs box).1`, `best_perms` is `(bestOf probs box).2`). -/
def selectForBox (probs : List (List Frac)) (box : List Nat) : List (List Nat × Frac) :=
  if Frac.le (bestOf probs box).1 ((fr 0 1).add EPS) then
    [(box, (bestOf probs box).1)]
  else
    match multiPositions (bestOf probs box).2 with
    | [i] =>
        if (posVals (bestOf probs box).2 i).length = 2 then
          (collectVariants i (bestOf probs box).2 []).map
            (fun kv => (kv.2, (bestOf probs box).1))
        else
          selectOne (bestOf probs box).2 (bestOf probs box).1
    | _ => selectOne (bestOf probs box).2 (bestOf probs box).1

/-- The scoring loop over all kept boxes, outputs in append order. -/
def select_straights (probs : List (List Frac)) (boxes : List (List Nat)) :
    List (List Nat × Frac) :=
  boxes.flatMap (selectForBox probs)

/-- The comparator of `outputs.sort(key=lambda x: (-x[1], x[0]))`:
u may stand before v. -/
def entryLe (u v : List Nat × Frac) : Bool :=
  decide (Frac.lt v.2 u.2) || (decide (Frac.eqv v.2 u.2) && !(lexLt v.1 u.1))

/-- `entryLe` as a relation. -/
def entryRel (u v : List Nat × Frac) : Prop := entryLe u v = true

instance (u v : List Nat × Frac) : Decidable (entryRel u v) :=
  inferInstanceAs (Decidable (_ = _))

/-- The Output Ranker, line 386: a stable ascending sort under the
comparator, exactly Python `outputs.sort(key=lambda x: (-x[1], x[0]))`. -/
def rankOutputs (outs : List (List Nat × Frac)) : List (List Nat × Frac) :=
  List.insertionSort entryRel outs

/-- A digit list rendered as the digit string the source prints. -/
def render (l : List Nat) : String :=
  String.mk (l.map (fun dd => Char.ofNat (48 + dd)))

/-- The core run after the profile guard: scored path when a profile is
present (lines 335-391), plain box list otherwise (lines 408-411). -/
def runCore (cs : ConstraintSet) (pos_probs : Option (List (List Frac))) : List String :=
  let kept := (generate_boxes cs).1
  match pos_probs with
  | some probs => (rankOutputs (select_straights probs kept)).map (fun e => render e.1)
  | none => kept.map render

/-- The guard of lines 274-283: a missing text or a parse failure both
leave `pos_probs` empty. -/
def resolveProfile (parsed : Option (Except String (List (List Frac)))) :
    Option (List (List Frac)) :=
  match parsed with
  | none => none
  | some (Except.error _) => none
  | some (Except.ok probs) => some probs

/-- The whole run from the parse outcome. -/
def runTop (cs : ConstraintSet) (parsed : Option (Except String (List (List Frac)))) :
    List String :=
  runCore cs (resolveProfile parsed)

/-- Python `sum(row)` (starts from 0). -/
def rowSum (row : List Frac) : Frac := row.foldl Frac.add (fr 0 1)

/-- Lines 72-80 of the source; `s` is `rowSum row` and 99.5, 100.5, 0.99,
1.01 are the exact rationals 199/2, 201/2, 99/100, 101/100. -/
def normalize_row (row : List Frac) : List Frac :=
  if Frac.le (fr 199 2) (rowSum row) ∧ Frac.le (rowSum row) (fr 201 2) then
    row.map (fun x => x.div (fr 100 1))
  else if Frac.le (fr 99 100) (rowSum row) ∧ Frac.le (rowSum row) (fr 101 100) then row
  else if Frac.lt (fr 0 1) (rowSum row) then row.map (fun x => x.div (rowSum row))
  else row

/-- Modelled from the spec, not from the source: the spec's
`additive_score` = "sum over the same positions of the same probabilities".
The source computes no such quantity; this definition exists only to state
the spec's claims about it against the code. -/
def spec_additive_score (straight : List Nat) (pos_probs : List (List Frac)) : Frac :=
  (straight.enum.map (fun p => (pos_probs.getD p.1 zeroRow).getD p.2 (fr 0 1))).foldl
    Frac.add (fr 0 1)

/-- A constraint set keeping exactly the boxes of digit sum 2, with every
other filter wide open (fields in declaration order: sum 2..2, low_max 4,
low/high/even/odd bounds 0..5, no mandatory or forbidden digits, all
patterns and runs allowed). -/
def cs0 : ConstraintSet :=
  ⟨2, 2, 4, 0, 5, 0, 5, 0, 5, 0, 5, [], [], true, true, true, true, true⟩

/-- Five normalized probability rows: p1 = point mass on digit 0;
p2 = (1/4, 3/4) on digits 0,1; p3 = (1/3, 2/3) on digits 0,1;
p4 = point mass on digit 0; p5 = (1/7, 0, 6/7) on digits 0,1,2. -/
def probs0 : List (List Frac) :=
  [ [fr 1 1, fr 0 1, fr 0 1, fr 0 1, fr 0 1, fr 0 1, fr 0 1, fr 0 1, fr 0 1, fr 0 1]
  , [fr 1 4, fr 3 4, fr 0 1, fr 0 1, fr 0 1, fr 0 1, fr 0 1, fr 0 1, fr 0 1, fr 0 1]
  , [fr 1 3, fr 2 3, fr 0 1, fr 0 1, fr 0 1, fr 0 1, fr 0 1, fr 0 1, fr 0 1, fr 0 1]
  , [fr 1 1, fr 0 1, fr 0 1, fr 0 1, fr 0 1, fr 0 1, fr 0 1, fr 0 1, fr 0 1, fr 0 1]
  , [fr 1 7, fr 0 1, fr 6 7, fr 0 1, fr 0 1, fr 0 1, fr 0 1, fr 0 1, fr 0 1, fr 0 1] ]

/-- The all-zero Positional Profile: five rows of ten zeros. -/
def zeroProfile : List (List Frac) := List.replicate 5 zeroRow

/-- A row that is a point mass on digit 7. -/
def sevenRow : List Frac :=
  [fr 0 1, fr 0 1, fr 0 1, fr 0 1, fr 0 1, fr 0 1, fr 0 1, fr 1 1, fr 0 1, fr 0 1]

/-- The point-mass-on-7 profile: every position demands digit 7. -/
def sevenProfile : List (List Frac) := List.replicate 5 sevenRow

/-- A raw profile row summing to 99.5: accepted by the percentage branch
of `normalize_row`. -/
def row99 : List Frac := fr 199 2 :: List.replicate 9 (fr 0 1)

/-! Spec-side filter predicates (section 4.1 of the spec), stated
independently of the continue-chain and compared with it in C4. -/

/-- Predicate 1: no forbidden digit appears in the box. -/
def passes_forbidden (cs : ConstraintSet) (box : List Nat) : Prop :=
  ∀ dd ∈ box, dd ∉ cs.forbid_digits

/-- Predicate 2: the digit sum lies in the configured range. -/
def passes_sum (cs : ConstraintSet) (box : List Nat) : Prop :=
  cs.sum_min ≤ box.sum ∧ box.sum ≤ cs.sum_max

/-- Predicate 3: low and high counts within bounds (highs = 5 - lows). -/
def passes_low_high (cs : ConstraintSet) (box : List Nat) : Prop :=
  cs.min_low ≤ lowsOf cs box ∧ lowsOf cs box ≤ cs.max_low ∧
    cs.min_high ≤ 5 - lowsOf cs box ∧ 5 - lowsOf cs box ≤ cs.max_high

/-- Predicate 4: even and odd counts within bounds (odds = 5 - evens). -/
def passes_even_odd (cs : ConstraintSet) (box : List Nat) : Prop :=
  cs.min_even ≤ evensOf box ∧ evensOf box ≤ cs.max_even ∧
    cs.min_odd ≤ 5 - evensOf box ∧ 5 - evensOf box ≤ cs.max_odd

/-- Predicate 5: OR semantics of the mandatory digits. -/
def passes_mandatory (cs : ConstraintSet) (box : List Nat) : Prop :=
  cs.mand_digits = [] ∨ ∃ dd ∈ cs.mand_digits, dd ∈ box

/-- Predicate 6: the four multiplicity-pattern allowances, the
double-double counted as at least two distinct digits of multiplicity 2. -/
def passes_patterns (cs : ConstraintSet) (box : List Nat) : Prop :=
  (cs.allow_quints = true ∨ ¬ 5 ∈ countVals box) ∧
    (cs.allow_quads = true ∨ ¬ 4 ∈ countVals box) ∧
    (cs.allow_triples = true ∨ ¬ 3 ∈ countVals box) ∧
    (cs.allow_dd = true ∨ (countVals box).countP (fun v => v == 2) < 2)

/-- Predicate 7: when runs are disallowed, the longest run of consecutive
values among the distinct digits is < 4. -/
def passes_runs (cs : ConstraintSet) (box : List Nat) : Prop :=
  cs.allow_runs4p = true ∨ longest_consecutive_run_length (sortNat box.dedup) < 4

/-- Modelled from the spec: the product of the factorials of the box's
digit multiplicities, the denominator in the spec's permutation-count
formula `5! / prod(multiplicity!)`. -/
def spec_perm_denom (box : List Nat) : Nat :=
  (box.dedup.map (fun d => Nat.factorial (box.count d))).prod

/-- Rank of a value among the five (possibly repeated) entries of a box:
the index of its first occurrence in `[a, b, c, d, e]`.  Used to relabel
an arbitrary box to a canonical pattern with the same multiplicities. -/
def rankOf (a b c d e x : Nat) : Nat :=
  if x = a then 0 else if x = b then 1 else if x = c then 2
  else if x = d then 3 else 4

/-! ### Value bridge: `Frac` to ℚ -/

theorem Frac.valden_pos (f : Frac) : (0 : ℚ) < (f.d : ℚ) + 1 := by positivity

theorem Frac.valden_ne (f : Frac) : ((f.d : ℚ) + 1) ≠ 0 :=
  ne_of_gt f.valden_pos

theorem castSubOne (x : Nat) (h : 1 ≤ x) : ((x - 1 : Nat) : ℚ) + 1 = (x : ℚ) := by
  rw [Nat.cast_sub h]
  norm_num

theorem val_fr (n : Int) (dd : Nat) (h : 1 ≤ dd) : (fr n dd).val = (n : ℚ) / (dd : ℚ) := by
  unfold fr Frac.val
  rw [castSubOne dd h]

theorem den_cast (f : Frac) : ((f.den : ℚ)) = (f.d : ℚ) + 1 := by
  unfold Frac.den
  push_cast
  ring

theorem mulden_cast (f g : Frac) :
    (((f.d + 1) * (g.d + 1) - 1 : Nat) : ℚ) + 1 = ((f.d : ℚ) + 1) * ((g.d : ℚ) + 1) := by
  rw [castSubOne _ (Nat.mul_pos (Nat.succ_pos f.d) (Nat.succ_pos g.d))]
  push_cast
  ring

theorem Frac.val_add (f g : Frac) : (f.add g).val = f.val + g.val := by
  unfold Frac.add Frac.val
  simp only [mulden_cast f g]
  rw [div_add_div _ _ f.valden_ne g.valden_ne]
  push_cast [Frac.den]
  ring_nf

theorem Frac.val_sub (f g : Frac) : (f.sub g).val = f.val - g.val := by
  unfold Frac.sub Frac.val
  simp only [mulden_cast f g]
  rw [div_sub_div _ _ f.valden_ne g.valden_ne]
  push_cast [Frac.den]
  ring_nf

theorem Frac.val_mul (f g : Frac) : (f.mul g).val = f.val * g.val := by
  unfold Frac.mul Frac.val
  simp only [mulden_cast f g]
  rw [div_mul_div_comm]
  push_cast
  ring_nf

theorem Frac.val_abs (f : Frac) : (f.abs).val = |f.val| := by
  unfold Frac.abs Frac.val
  rw [abs_div, abs_of_pos f.valden_pos]
  push_cast
  ring_nf

theorem Frac.val_div (f g : Frac) (h : 0 < g.num) : (f.div g).val = f.val / g.val := by
  unfold Frac.div Frac.val
  have h1 : 1 ≤ (f.d + 1) * g.num.toNat :=
    Nat.one_le_iff_ne_zero.2 (Nat.mul_ne_zero (Nat.succ_ne_zero _) (by omega))
  rw [castSubOne _ h1]
  have htn : ((g.num.toNat : ℚ)) = (g.num : ℚ) := by
    have h3 : ((g.num.toNat : Int)) = g.num := Int.toNat_of_nonneg h.le
    exact_mod_cast congrArg (fun z : Int => (z : ℚ)) h3
  have hgnum : ((g.num : ℚ)) ≠ 0 := by
    have h4 : (0 : ℚ) < (g.num : ℚ) := by exact_mod_cast h
    exact ne_of_gt h4
  push_cast [Frac.den]
  rw [htn]
  field_simp

theorem Frac.lt_iff (f g : Frac) : Frac.lt f g ↔ f.val < g.val := by
  unfold Frac.lt Frac.val
  rw [div_lt_div_iff f.valden_pos g.valden_pos]
  constructor
  · intro h
    have h2 : ((f.num * g.den : Int) : ℚ) < ((g.num * f.den : Int) : ℚ) := by exact_mod_cast h
    push_cast [Frac.den] at h2
    nlinarith [h2]
  · intro h
    have h2 : ((f.num * g.den : Int) : ℚ) < ((g.num * f.den : Int) : ℚ) := by
      push_cast [Frac.den]
      nlinarith [h]
    exact_mod_cast h2

theorem Frac.le_iff (f g : Frac) : Frac.le f g ↔ f.val ≤ g.val := by
  unfold Frac.le Frac.val
  rw [div_le_div_iff f.valden_pos g.valden_pos]
  constructor
  · intro h
    have h2 : ((f.num * g.den : Int) : ℚ) ≤ ((g.num * f.den : Int) : ℚ) := by exact_mod_cast h
    push_cast [Frac.den] at h2
    nlinarith [h2]
  · intro h
    have h2 : ((f.num * g.den : Int) : ℚ) ≤ ((g.num * f.den : Int) : ℚ) := by
      push_cast [Frac.den]
      nlinarith [h]
    exact_mod_cast h2

theorem Frac.eqv_iff (f g : Frac) : Frac.eqv f g ↔ f.val = g.val := by
  unfold Frac.eqv Frac.val
  rw [div_eq_div_iff f.valden_ne g.valden_ne]
  constructor
  · intro h
    have h2 : ((f.num * g.den : Int) : ℚ) = ((g.num * f.den : Int) : ℚ) := by exact_mod_cast h
    push_cast [Frac.den] at h2
    linarith [h2]
  · intro h
    have h2 : ((f.num * g.den : Int) : ℚ) = ((g.num * f.den : Int) : ℚ) := by
      push_cast [Frac.den]
      linarith [h]
    exact_mod_cast h2

theorem Frac.val_nonneg_of_num (f : Frac) (h : 0 ≤ f.num) : 0 ≤ f.val := by
  unfold Frac.val
  apply div_nonneg _ f.valden_pos.le
  exact_mod_cast h

theorem Frac.val_zero_of_num (f : Frac) (h : f.num = 0) : f.val = 0 := by
  unfold Frac.val
  rw [h]
  simp

theorem val_EPS : EPS.val = 1 / 10 ^ 15 := by
  unfold EPS
  rw [val_fr _ _ (by norm_num)]
  norm_num

theorem val_zeroFr : (fr 0 1).val = 0 := by
  rw [val_fr _ _ (by norm_num)]
  norm_num

theorem val_oneFr : (fr 1 1).val = 1 := by
  rw [val_fr _ _ (by norm_num)]
  norm_num

theorem val_negOneFr : (fr (-1) 1).val = -1 := by
  rw [val_fr _ _ (by norm_num)]
  norm_num

/-! ### The lexicographic order on digit lists -/

theorem lexLt_irrefl (l : List Nat) : lexLt l l = false := by
  induction l with
  | nil => rfl
  | cons a as ih => simp [lexLt, ih]

theorem lexLt_trans {a b c : List Nat} (h1 : lexLt a b = true) (h2 : lexLt b c = true) :
    lexLt a c = true := by
  induction a generalizing b c with
  | nil =>
    cases b with
    | nil => simp [lexLt] at h1
    | cons y ys =>
      cases c with
      | nil => simp [lexLt] at h2
      | cons z zs => rfl
  | cons x xs ih =>
    cases b with
    | nil => simp [lexLt] at h1
    | cons y ys =>
      cases c with
      | nil => simp [lexLt] at h2
      | cons z zs =>
        simp only [lexLt] at h1 h2 ⊢
        rcases Nat.lt_trichotomy x y with hxy | rfl | hyx
        · rcases Nat.lt_trichotomy y z with hyz | rfl | hzy
          · simp [Nat.lt_trans hxy hyz]
          · simp [hxy]
          · simp [Nat.lt_asymm hzy, hzy] at h2
        · simp only [lt_irrefl, if_false] at h1
          rcases Nat.lt_trichotomy x z with hxz | rfl | hzx
          · simp [hxz]
          · simp only [lt_irrefl, if_false] at h2 ⊢
            exact ih h1 h2
          · simp [Nat.lt_asymm hzx, hzx] at h2
        · simp [Nat.lt_asymm hyx, hyx] at h1

theorem lexLt_tri (a b : List Nat) : lexLt a b = true ∨ a = b ∨ lexLt b a = true := by
  induction a generalizing b with
  | nil =>
    cases b with
    | nil => simp
    | cons y ys => simp [lexLt]
  | cons x xs ih =>
    cases b with
    | nil => simp [lexLt]
    | cons y ys =>
      simp only [lexLt]
      rcases Nat.lt_trichotomy x y with hxy | rfl | hyx
      · simp [hxy]
      · simp only [lt_irrefl, if_false]
        rcases ih ys with h | rfl | h
        · simp [h]
        · simp
        · simp [h]
      · simp [Nat.lt_asymm hyx, hyx]

theorem lexLt_asymm {a b : List Nat} (h : lexLt a b = true) : lexLt b a = false := by
  by_contra hc
  have h2 : lexLt b a = true := by
    cases hba : lexLt b a with
    | false => exact absurd hba hc
    | true => rfl
  have := lexLt_trans h h2
  rw [lexLt_irrefl] at this
  exact Bool.false_ne_true this

theorem listMin_cons (x y : List Nat) (t : List (List Nat)) :
    listMin x (y :: t) = listMin (if lexLt y x then y else x) t := rfl

theorem listMin_mem (x : List Nat) (xs : List (List Nat)) : listMin x xs ∈ x :: xs := by
  induction xs generalizing x with
  | nil => simp [listMin]
  | cons y t ih =>
    rw [listMin_cons]
    by_cases h : lexLt y x
    · simp only [h, if_true]
      rcases (List.mem_cons).1 (ih y) with h2 | h2
      · simp [h2]
      · simp [h2]
    · simp only [h]
      rcases (List.mem_cons).1 (ih x) with h2 | h2
      · simp [h2]
      · simp [h2]

theorem listMin_least (x : List Nat) (xs : List (List Nat)) :
    ∀ q ∈ x :: xs, lexLt q (listMin x xs) = false := by
  induction xs generalizing x with
  | nil =>
    intro q hq
    simp at hq
    subst hq
    simp [listMin, lexLt_irrefl]
  | cons y t ih =>
    intro q hq
    rw [listMin_cons]
    by_cases h : lexLt y x
    · simp only [h, if_true]
      rcases (List.mem_cons).1 hq with rfl | hq2
      · by_contra hc
        have hqm : lexLt q (listMin y t) = true := by
          cases hv : lexLt q (listMin y t) with
          | false => exact absurd hv hc
          | true => rfl
        have hym : lexLt y (listMin y t) = false := ih y y (by simp)
        have := lexLt_trans h hqm
        rw [hym] at this
        exact Bool.false_ne_true this
      · exact ih y q (by simp [hq2])
    · simp only [h]
      rcases (List.mem_cons).1 hq with rfl | hq2
      · exact ih q q (by simp)
      · rcases (List.mem_cons).1 hq2 with rfl | hq3
        · rcases lexLt_tri q x with hqx | rfl | hxq
          · exact absurd hqx (by simp [h])
          · exact ih q q (by simp)
          · by_contra hc
            have hqm : lexLt q (listMin x t) = true := by
              cases hv : lexLt q (listMin x t) with
              | false => exact absurd hv hc
              | true => rfl
            have hxm : lexLt x (listMin x t) = false := ih x x (by simp)
            have := lexLt_trans hxq hqm
            rw [hxm] at this
            exact Bool.false_ne_true this
        · exact ih x q (by simp [hq3])

/-! ### The enumerator `cwr` -/

theorem cwrGo_length (rec : List Nat → List (List Nat)) (rec2 : Nat → Nat)
    (h : ∀ l : List Nat, (rec l).length = rec2 l.length) :
    ∀ l : List Nat, (cwrGo rec l).length = cwrLenGo rec2 l.length := by
  intro l
  induction l with
  | nil => rfl
  | cons dd ds ih =>
      simp only [cwrGo, List.length_append, List.length_map, List.length_cons, cwrLenGo, ih, h]

theorem cwrK_length : ∀ (k : Nat) (l : List Nat), (cwrK k l).length = cwrLen k l.length := by
  intro k
  induction k with
  | zero => intro l; rfl
  | succ k ih => intro l; exact cwrGo_length _ _ ih l

theorem allCandidates_length : allCandidates.length = 2002 := by
  have h := cwrK_length 5 (List.range 10)
  rw [List.length_range] at h
  have h2 : cwrLen 5 10 = 2002 := by decide
  rw [allCandidates, cwr, h, h2]

theorem cwrGo_mem {k : Nat} (rec : List Nat → List (List Nat))
    (hrec : ∀ l2 : List Nat, List.Pairwise (· ≤ ·) l2 → ∀ t ∈ rec l2,
      t.length = k ∧ (∀ x ∈ t, x ∈ l2) ∧ t.Chain' (· ≤ ·)) :
    ∀ l : List Nat, List.Pairwise (· ≤ ·) l → ∀ box ∈ cwrGo rec l,
      box.length = k + 1 ∧ (∀ x ∈ box, x ∈ l) ∧ box.Chain' (· ≤ ·) := by
  intro l
  induction l with
  | nil => intro _ box hbox; simp [cwrGo] at hbox
  | cons dd ds ih =>
      intro hp box hbox
      rcases List.mem_append.1 hbox with hb | hb
      · rcases List.mem_map.1 hb with ⟨t, ht, rfl⟩
        obtain ⟨hlen, hmem, hch⟩ := hrec (dd :: ds) hp t ht
        refine ⟨by simp [hlen], ?_, ?_⟩
        · intro x hx
          rcases List.mem_cons.1 hx with rfl | hx2
          · simp
          · exact hmem x hx2
        · rw [List.chain'_cons']
          refine ⟨?_, hch⟩
          intro y hy
          have hy2 : y ∈ t := List.mem_of_mem_head? hy
          rcases List.mem_cons.1 (hmem y hy2) with rfl | hy3
          · exact le_refl _
          · exact (List.pairwise_cons.1 hp).1 y hy3
      · obtain ⟨h1, h2, h3⟩ := ih (List.pairwise_cons.1 hp).2 box hb
        exact ⟨h1, fun x hx => List.mem_cons_of_mem _ (h2 x hx), h3⟩

theorem cwrK_mem : ∀ (k : Nat) (l : List Nat), List.Pairwise (· ≤ ·) l →
    ∀ box ∈ cwrK k l, box.length = k ∧ (∀ x ∈ box, x ∈ l) ∧ box.Chain' (· ≤ ·) := by
  intro k
  induction k with
  | zero =>
      intro l _ box hbox
      simp only [cwrK] at hbox
      simp at hbox
      subst hbox
      simp
  | succ k ih => intro l hp box hbox; exact cwrGo_mem _ ih l hp box hbox

theorem memOfGetLast {x : List Nat} {l : List (List Nat)} (h : x ∈ l.getLast?) : x ∈ l := by
  obtain ⟨h2, rfl⟩ := List.mem_getLast?_eq_getLast h
  exact List.getLast_mem h2

theorem cwrGo_shape (rec : List Nat → List (List Nat)) :
    ∀ l : List Nat, ∀ box ∈ cwrGo rec l, ∃ dd t, box = dd :: t ∧ dd ∈ l := by
  intro l
  induction l with
  | nil => intro box hbox; simp [cwrGo] at hbox
  | cons d0 ds ih =>
      intro box hbox
      rcases List.mem_append.1 hbox with hb | hb
      · rcases List.mem_map.1 hb with ⟨t, _, rfl⟩
        exact ⟨d0, t, rfl, by simp⟩
      · obtain ⟨dd, t, rfl, hdd⟩ := ih box hb
        exact ⟨dd, t, rfl, by simp [hdd]⟩

theorem lexLt_cons_same (dd : Nat) (a b : List Nat) : lexLt (dd :: a) (dd :: b) = lexLt a b := by
  simp [lexLt]

theorem cwrGo_lex (rec : List Nat → List (List Nat))
    (hrec : ∀ l2 : List Nat, List.Pairwise (· < ·) l2 →
      List.Chain' (fun a b => lexLt a b = true) (rec l2)) :
    ∀ l : List Nat, List.Pairwise (· < ·) l →
      List.Chain' (fun a b => lexLt a b = true) (cwrGo rec l) := by
  intro l
  induction l with
  | nil => intro _; simp [cwrGo]
  | cons d0 ds ih =>
      intro hp
      simp only [cwrGo]
      rw [List.chain'_append]
      refine ⟨?_, ih (List.pairwise_cons.1 hp).2, ?_⟩
      · rw [List.chain'_map]
        apply List.Chain'.imp _ (hrec (d0 :: ds) (by
          have hle : List.Pairwise (· ≤ ·) (d0 :: ds) := hp.imp (fun h => le_of_lt h)
          exact hp))
        intro a b hab
        rw [lexLt_cons_same]
        exact hab
      · intro x hx y hy
        have hx2 : x ∈ (rec (d0 :: ds)).map (fun t => d0 :: t) := memOfGetLast hx
        have hy2 : y ∈ cwrGo rec ds := List.mem_of_mem_head? hy
        rcases List.mem_map.1 hx2 with ⟨t, _, rfl⟩
        obtain ⟨dd, t2, rfl, hdd⟩ := cwrGo_shape rec ds y hy2
        have hlt : d0 < dd := (List.pairwise_cons.1 hp).1 dd hdd
        simp [lexLt, hlt]

theorem cwrK_lex : ∀ (k : Nat) (l : List Nat), List.Pairwise (· < ·) l →
    List.Chain' (fun a b => lexLt a b = true) (cwrK k l) := by
  intro k
  induction k with
  | zero => intro l _; simp [cwrK]
  | succ k ih => intro l hp; exact cwrGo_lex _ ih l hp

/-- `IsTrans` packaging of `lexLt` for `chain'_iff_pairwise`. -/
theorem lexPairwise_of_chain {l : List (List Nat)}
    (h : List.Chain' (fun a b => lexLt a b = true) l) :
    List.Pairwise (fun a b => lexLt a b = true) l := by
  have inst : IsTrans (List Nat) (fun a b => lexLt a b = true) := ⟨fun _ _ _ => lexLt_trans⟩
  exact List.chain'_iff_pairwise.1 h

/-! ### The filter chain and the seven predicates -/

theorem notAndDecide (p q : Prop) [Decidable p] [Decidable q] :
    (!(decide p && decide q)) = true ↔ ¬(p ∧ q) := by
  simp only [Bool.not_eq_true', Bool.and_eq_false_iff, decide_eq_false_iff_not]
  tauto

theorem forbidCond_iff (cs : ConstraintSet) (box : List Nat) :
    (!cs.forbid_digits.isEmpty && box.any (fun dd => cs.forbid_digits.contains dd)) = true ↔
      ¬ passes_forbidden cs box := by
  unfold passes_forbidden
  simp only [Bool.and_eq_true, Bool.not_eq_true', List.isEmpty_eq_false, List.any_eq_true,
    List.elem_iff]
  constructor
  · rintro ⟨_, dd, hdd, hmem⟩ hall
    exact hall dd hdd hmem
  · intro h
    push_neg at h
    obtain ⟨dd, hdd, hmem⟩ := h
    exact ⟨List.ne_nil_of_mem hmem, dd, hdd, hmem⟩

theorem mandCond_iff (cs : ConstraintSet) (box : List Nat) :
    (!cs.mand_digits.isEmpty && !(cs.mand_digits.any (fun dd => box.contains dd))) = true ↔
      ¬ passes_mandatory cs box := by
  unfold passes_mandatory
  simp only [Bool.and_eq_true, Bool.not_eq_true', List.any_eq_false, List.isEmpty_eq_false,
    List.elem_iff]
  constructor
  · rintro ⟨hne, hall⟩ hc
    rcases hc with hmt | ⟨dd, hdd, hmem⟩
    · exact hne hmt
    · exact hall dd hdd hmem
  · intro h
    push_neg at h
    exact ⟨h.1, fun dd hdd => h.2 dd hdd⟩

theorem violates_iff (cs : ConstraintSet) (box : List Nat) :
    violates_patterns (countVals box) cs.allow_quints cs.allow_quads cs.allow_triples
      cs.allow_dd = true ↔ ¬ passes_patterns cs box := by
  unfold violates_patterns passes_patterns
  split_ifs with h1 h2 h3 h4
  · simp only [Bool.and_eq_true, Bool.not_eq_true', List.any_eq_true, beq_iff_eq] at h1
    simp only [eq_self_iff_true, true_iff]
    rintro ⟨hq, _, _, _⟩
    rcases hq with hq | hq
    · rw [hq] at h1
      simp at h1
    · obtain ⟨v, hv, rfl⟩ := h1.2
      exact hq hv
  · simp only [Bool.and_eq_true, Bool.not_eq_true', List.any_eq_true, beq_iff_eq] at h2
    simp only [eq_self_iff_true, true_iff]
    rintro ⟨_, hq, _, _⟩
    rcases hq with hq | hq
    · rw [hq] at h2
      simp at h2
    · obtain ⟨v, hv, rfl⟩ := h2.2
      exact hq hv
  · simp only [Bool.and_eq_true, Bool.not_eq_true', List.any_eq_true, beq_iff_eq] at h3
    simp only [eq_self_iff_true, true_iff]
    rintro ⟨_, _, hq, _⟩
    rcases hq with hq | hq
    · rw [hq] at h3
      simp at h3
    · obtain ⟨v, hv, rfl⟩ := h3.2
      exact hq hv
  · simp only [Bool.and_eq_true, Bool.not_eq_true', decide_eq_true_eq] at h4
    simp only [eq_self_iff_true, true_iff]
    rintro ⟨_, _, _, hq⟩
    rcases hq with hq | hq
    · rw [hq] at h4
      simp at h4
    · omega
  · simp only [Bool.and_eq_true, Bool.not_eq_true', List.any_eq_true, beq_iff_eq,
      decide_eq_true_eq] at h1 h2 h3 h4
    push_neg at h1 h2 h3 h4
    simp only [Bool.false_eq_true, false_iff, not_not]
    refine ⟨?_, ?_, ?_, ?_⟩
    · by_cases hq : cs.allow_quints = true
      · exact Or.inl hq
      · have hq2 : cs.allow_quints = false := Bool.not_eq_true _ ▸ hq
        exact Or.inr (fun hv => h1 hq2 5 hv rfl)
    · by_cases hq : cs.allow_quads = true
      · exact Or.inl hq
      · have hq2 : cs.allow_quads = false := Bool.not_eq_true _ ▸ hq
        exact Or.inr (fun hv => h2 hq2 4 hv rfl)
    · by_cases hq : cs.allow_triples = true
      · exact Or.inl hq
      · have hq2 : cs.allow_triples = false := Bool.not_eq_true _ ▸ hq
        exact Or.inr (fun hv => h3 hq2 3 hv rfl)
    · by_cases hq : cs.allow_dd = true
      · exact Or.inl hq
      · have hq2 : cs.allow_dd = false := Bool.not_eq_true _ ▸ hq
        exact Or.inr (by have := h4 hq2; omega)

theorem runsCond_iff (cs : ConstraintSet) (box : List Nat) :
    (!cs.allow_runs4p
        && decide (4 ≤ longest_consecutive_run_length (sortNat box.dedup))) = true ↔
      ¬ passes_runs cs box := by
  unfold passes_runs
  simp only [Bool.and_eq_true, Bool.not_eq_true', decide_eq_true_eq]
  constructor
  · rintro ⟨hr, hle⟩ hc
    rcases hc with hc | hc
    · rw [hc] at hr
      simp at hr
    · omega
  · intro h
    push_neg at h
    refine ⟨?_, by omega⟩
    cases hv : cs.allow_runs4p with
    | false => rfl
    | true => exact absurd hv h.1

theorem keepBox_iff (cs : ConstraintSet) (box : List Nat) :
    keepBox cs box = true ↔
      (passes_forbidden cs box ∧ passes_sum cs box ∧ passes_low_high cs box ∧
       passes_even_odd cs box ∧ passes_mandatory cs box ∧ passes_patterns cs box ∧
       passes_runs cs box) := by
  unfold keepBox
  split_ifs with h1 h2 h3 h4 h5 h6 h7 h8 h9
  · simp only [Bool.false_eq_true, false_iff]
    intro hc
    exact ((forbidCond_iff cs box).1 h1) hc.1
  · simp only [Bool.false_eq_true, false_iff]
    intro hc
    exact ((notAndDecide _ _).1 h2) hc.2.1
  · simp only [Bool.false_eq_true, false_iff]
    intro hc
    have := (notAndDecide _ _).1 h3
    exact this ⟨hc.2.2.1.1, hc.2.2.1.2.1⟩
  · simp only [Bool.false_eq_true, false_iff]
    intro hc
    have := (notAndDecide _ _).1 h4
    exact this ⟨hc.2.2.1.2.2.1, hc.2.2.1.2.2.2⟩
  · simp only [Bool.false_eq_true, false_iff]
    intro hc
    have := (notAndDecide _ _).1 h5
    exact this ⟨hc.2.2.2.1.1, hc.2.2.2.1.2.1⟩
  · simp only [Bool.false_eq_true, false_iff]
    intro hc
    have := (notAndDecide _ _).1 h6
    exact this ⟨hc.2.2.2.1.2.2.1, hc.2.2.2.1.2.2.2⟩
  · simp only [Bool.false_eq_true, false_iff]
    intro hc
    exact ((mandCond_iff cs box).1 h7) hc.2.2.2.2.1
  · simp only [Bool.false_eq_true, false_iff]
    intro hc
    exact ((violates_iff cs box).1 h8) hc.2.2.2.2.2.1
  · simp only [Bool.false_eq_true, false_iff]
    intro hc
    exact ((runsCond_iff cs box).1 h9) hc.2.2.2.2.2.2
  · simp only [eq_self_iff_true, true_iff]
    have p1 : passes_forbidden cs box := by
      by_contra hc
      exact h1 ((forbidCond_iff cs box).2 hc)
    have p2 : passes_sum cs box := by
      by_contra hc
      exact h2 ((notAndDecide _ _).2 hc)
    have p3a : cs.min_low ≤ lowsOf cs box ∧ lowsOf cs box ≤ cs.max_low := by
      by_contra hc
      exact h3 ((notAndDecide _ _).2 hc)
    have p3b : cs.min_high ≤ 5 - lowsOf cs box ∧ 5 - lowsOf cs box ≤ cs.max_high := by
      by_contra hc
      exact h4 ((notAndDecide _ _).2 hc)
    have p4a : cs.min_even ≤ evensOf box ∧ evensOf box ≤ cs.max_even := by
      by_contra hc
      exact h5 ((notAndDecide _ _).2 hc)
    have p4b : cs.min_odd ≤ 5 - evensOf box ∧ 5 - evensOf box ≤ cs.max_odd := by
      by_contra hc
      exact h6 ((notAndDecide _ _).2 hc)
    have p5 : passes_mandatory cs box := by
      by_contra hc
      exact h7 ((mandCond_iff cs box).2 hc)
    have p6 : passes_patterns cs box := by
      by_contra hc
      exact h8 ((violates_iff cs box).2 hc)
    have p7 : passes_runs cs box := by
      by_contra hc
      exact h9 ((runsCond_iff cs box).2 hc)
    exact ⟨p1, p2, ⟨p3a.1, p3a.2, p3b.1, p3b.2⟩, ⟨p4a.1, p4a.2, p4b.1, p4b.2⟩, p5, p6, p7⟩

/-- Claim C4: for every Constraint Set, `generate_boxes` reports
total_candidates = 2002, keeps at most 2002 boxes, and a candidate box is
kept if and only if it satisfies all seven filter predicates
(forbidden digits, sum range, low/high counts, even/odd counts,
mandatory-digit OR, pattern multiplicities with double-double counting,
and the run rule when runs are disallowed). -/
theorem claim_C4 : ∀ cs : ConstraintSet,
    (generate_boxes cs).2 = 2002 ∧
    (generate_boxes cs).1.length ≤ 2002 ∧
    ∀ box : List Nat, box ∈ (generate_boxes cs).1 ↔
      (box ∈ allCandidates ∧ passes_forbidden cs box ∧ passes_sum cs box ∧
       passes_low_high cs box ∧ passes_even_odd cs box ∧ passes_mandatory cs box ∧
       passes_patterns cs box ∧ passes_runs cs box) := by
  intro cs
  refine ⟨allCandidates_length, ?_, ?_⟩
  · calc (generate_boxes cs).1.length ≤ allCandidates.length :=
        List.length_filter_le _ _
    _ = 2002 := allCandidates_length
  · intro box
    constructor
    · intro h
      have h2 := List.mem_filter.1 h
      obtain ⟨q1, q2, q3, q4, q5, q6, q7⟩ := (keepBox_iff cs box).1 h2.2
      exact ⟨h2.1, q1, q2, q3, q4, q5, q6, q7⟩
    · rintro ⟨hm, q1, q2, q3, q4, q5, q6, q7⟩
      exact List.mem_filter.2 ⟨hm, (keepBox_iff cs box).2 ⟨q1, q2, q3, q4, q5, q6, q7⟩⟩

/-- Claim C8: every box produced by `generate_boxes` has exactly 5 digits,
each in [0,9], in non-decreasing order; the kept boxes appear in
lexicographic order (the natural enumeration order); and running the
enumeration twice with the same Constraint Set gives identical output. -/
theorem claim_C8 : ∀ cs : ConstraintSet,
    (∀ box ∈ (generate_boxes cs).1,
      box.length = 5 ∧ (∀ dd ∈ box, dd ≤ 9) ∧ box.Chain' (· ≤ ·)) ∧
    List.Chain' (fun a b => lexLt a b = true) (generate_boxes cs).1 ∧
    generate_boxes cs = generate_boxes cs := by
  intro cs
  have hplt : List.Pairwise (· < ·) (List.range 10) := List.pairwise_lt_range 10
  have hple : List.Pairwise (· ≤ ·) (List.range 10) := hplt.imp le_of_lt
  refine ⟨?_, ?_, rfl⟩
  · intro box hbox
    have hmem : box ∈ allCandidates := (List.mem_filter.1 hbox).1
    obtain ⟨h1, h2, h3⟩ := cwrK_mem 5 (List.range 10) hple box hmem
    exact ⟨h1, fun dd hdd => by
      have := h2 dd hdd
      have := List.mem_range.1 this
      omega, h3⟩
  · have hchain := cwrK_lex 5 (List.range 10) hplt
    have hpw := lexPairwise_of_chain hchain
    have hsub : (generate_boxes cs).1.Sublist allCandidates := List.filter_sublist _
    exact (hpw.sublist hsub).chain'

/-- Claim C9: when the profile text is malformed (the parser fails), the
run proceeds exactly as if no profile had been supplied: enumeration is
not aborted, no scored straights are produced, and the kept boxes are
reported in canonical unscored form. -/
theorem claim_C9 : ∀ (cs : ConstraintSet) (e : String),
    runTop cs (some (Except.error e)) = runTop cs none ∧
    runTop cs (some (Except.error e)) = ((generate_boxes cs).1).map render := by
  intro cs e
  exact ⟨rfl, rfl⟩

/-! ### Invariants of the best-score fold -/

theorem scoreStep_snd_ne_nil (probs : List (List Frac)) (st : Frac × List (List Nat))
    (p : List Nat) (h : st.2 ≠ []) : (scoreStep probs st p).2 ≠ [] := by
  unfold scoreStep
  split_ifs <;> simp [h]

theorem bestFold_ne_nil (probs : List (List Frac)) (l : List (List Nat)) :
    ∀ st : Frac × List (List Nat), st.2 ≠ [] →
      (l.foldl (scoreStep probs) st).2 ≠ [] := by
  induction l with
  | nil => intro st h; exact h
  | cons p rest ih =>
      intro st h
      exact ih (scoreStep probs st p) (scoreStep_snd_ne_nil probs st p h)

theorem bestFold_empty_best (probs : List (List Frac)) (l : List (List Nat)) :
    ∀ st : Frac × List (List Nat), (st.2 = [] → st.1 = fr (-1) 1) →
      ((l.foldl (scoreStep probs) st).2 = [] → (l.foldl (scoreStep probs) st).1 = fr (-1) 1) := by
  induction l with
  | nil => intro st h; exact h
  | cons q rest ih =>
      intro st h
      apply ih
      unfold scoreStep
      split_ifs
      · simp
      · simp
      · exact h

theorem bestFold_subset (probs : List (List Frac)) (l : List (List Nat)) (S : List (List Nat)) :
    ∀ st : Frac × List (List Nat), (∀ x ∈ st.2, x ∈ S) → (∀ x ∈ l, x ∈ S) →
      ∀ x ∈ (l.foldl (scoreStep probs) st).2, x ∈ S := by
  induction l with
  | nil => intro st h _; exact h
  | cons pp rest ih =>
      intro st h hl
      apply ih
      · unfold scoreStep
        split_ifs
        · intro y hy
          simp only [List.mem_singleton] at hy
          subst hy
          exact hl _ (by simp)
        · intro y hy
          simp only [List.mem_append, List.mem_singleton] at hy
          rcases hy with hy | hy
          · exact h y hy
          · subst hy
            exact hl _ (by simp)
        · exact h
      · intro r hr
        exact hl r (by simp [hr])

theorem bestOf_ne_nil_of_gt (probs : List (List Frac)) (box : List Nat)
    (h : Frac.lt EPS (bestOf probs box).1) : (bestOf probs box).2 ≠ [] := by
  intro hnil
  have hbest : (bestOf probs box).1 = fr (-1) 1 :=
    bestFold_empty_best probs (distinctPerms box) _ (fun _ => rfl) hnil
  rw [hbest] at h
  have h2 := (Frac.lt_iff _ _).1 h
  rw [val_EPS, val_negOneFr] at h2
  norm_num at h2

theorem bestOf_mem_perms (probs : List (List Frac)) (box : List Nat) :
    ∀ p ∈ (bestOf probs box).2, p ∈ distinctPerms box := by
  intro p hp
  exact bestFold_subset probs (distinctPerms box) (distinctPerms box) _
    (by intro x hx; simp at hx) (fun q hq => hq) p hp

/-! ### The variants collection -/

theorem collect_sub (idx : Nat) : ∀ (l : List (List Nat)) (acc : List (Nat × List Nat)),
    ∀ kv ∈ collectVariants idx l acc,
      kv ∈ acc ∨ (kv.2 ∈ l ∧ kv.1 = kv.2.getD idx 0) := by
  intro l
  induction l with
  | nil => intro acc kv hkv; exact Or.inl hkv
  | cons pp rest ih =>
      intro acc kv hkv
      unfold collectVariants at hkv
      split_ifs at hkv with hk h2 h3
      · exact Or.inl hkv
      · rcases ih acc kv hkv with h | h
        · exact Or.inl h
        · exact Or.inr ⟨by simp [h.1], h.2⟩
      · rcases List.mem_append.1 hkv with h | h
        · exact Or.inl h
        · simp only [List.mem_singleton] at h
          subst h
          exact Or.inr ⟨by simp, rfl⟩
      · rcases ih _ kv hkv with h | h
        · rcases List.mem_append.1 h with h3 | h3
          · exact Or.inl h3
          · simp only [List.mem_singleton] at h3
            subst h3
            exact Or.inr ⟨by simp, rfl⟩
        · exact Or.inr ⟨by simp [h.1], h.2⟩

theorem collect_keys_nodup (idx : Nat) :
    ∀ (l : List (List Nat)) (acc : List (Nat × List Nat)),
      (acc.map Prod.fst).Nodup → ((collectVariants idx l acc).map Prod.fst).Nodup := by
  intro l
  induction l with
  | nil => intro acc h; exact h
  | cons pp rest ih =>
      intro acc h
      unfold collectVariants
      have happ : (acc.map Prod.fst).contains (pp.getD idx 0) = false →
          ((acc ++ [(pp.getD idx 0, pp)]).map Prod.fst).Nodup := by
        intro hn
        have hnotin : pp.getD idx 0 ∉ acc.map Prod.fst := by
          intro hc
          have hc2 : (acc.map Prod.fst).contains (pp.getD idx 0) = true := List.elem_iff.2 hc
          rw [hn] at hc2
          exact Bool.false_ne_true hc2
        rw [List.map_append]
        simp only [List.map_cons, List.map_nil]
        rw [List.nodup_append]
        refine ⟨h, List.nodup_singleton _, ?_⟩
        intro a ha hb
        simp only [List.mem_singleton] at hb
        subst hb
        exact hnotin ha
      split_ifs with hk h2 h3
      · exact h
      · exact ih acc h
      · exact happ (by simpa using hk)
      · exact ih _ (happ (by simpa using hk))

theorem collect_len_le (idx : Nat) :
    ∀ (l : List (List Nat)) (acc : List (Nat × List Nat)),
      acc.length ≤ 1 → (collectVariants idx l acc).length ≤ 2 := by
  intro l
  induction l with
  | nil => intro acc h; unfold collectVariants; omega
  | cons pp rest ih =>
      intro acc h
      unfold collectVariants
      split_ifs with hk h2 h3
      · omega
      · exact ih acc h
      · simp only [beq_iff_eq, List.length_append, List.length_singleton] at h3 ⊢
        omega
      · apply ih
        simp only [beq_iff_eq, List.length_append, List.length_singleton] at h3 ⊢
        omega

theorem collect_len_ge (idx : Nat) :
    ∀ (l : List (List Nat)) (acc : List (Nat × List Nat)) (a b : Nat), a ≠ b →
      acc.length ≤ 1 →
      a ∈ acc.map Prod.fst ++ l.map (fun p => p.getD idx 0) →
      b ∈ acc.map Prod.fst ++ l.map (fun p => p.getD idx 0) →
      2 ≤ (collectVariants idx l acc).length := by
  intro l
  induction l with
  | nil =>
      intro acc a b hab hlen ha hb
      exfalso
      simp only [List.map_nil, List.append_nil] at ha hb
      rcases acc with _ | ⟨kv, _ | _⟩
      · simp at ha
      · simp only [List.map_cons, List.map_nil, List.mem_singleton] at ha hb
        exact hab (ha.trans hb.symm)
      · simp at hlen
  | cons pp rest ih =>
      intro acc a b hab hlen ha hb
      unfold collectVariants
      split_ifs with hk h2 h3
      · simp only [beq_iff_eq] at h2
        omega
      · have hkm : pp.getD idx 0 ∈ acc.map Prod.fst := List.elem_iff.1 hk
        apply ih acc a b hab hlen
        · simp only [List.map_cons, List.mem_append, List.mem_cons] at ha ⊢
          rcases ha with hc | hc | hc
          · exact Or.inl hc
          · exact Or.inl (hc ▸ hkm)
          · exact Or.inr hc
        · simp only [List.map_cons, List.mem_append, List.mem_cons] at hb ⊢
          rcases hb with hc | hc | hc
          · exact Or.inl hc
          · exact Or.inl (hc ▸ hkm)
          · exact Or.inr hc
      · simp only [beq_iff_eq, List.length_append, List.length_singleton] at h3 ⊢
        omega
      · simp only [beq_iff_eq, List.length_append, List.length_singleton] at h3
        have haccnil : acc = [] := List.length_eq_zero.1 (by omega)
        subst haccnil
        apply ih [(pp.getD idx 0, pp)] a b hab (by simp)
        · simp at ha ⊢
          tauto
        · simp at hb ⊢
          tauto

/-! ### Branch reductions of `selectForBox` -/

theorem selectForBox_collapse (probs : List (List Frac)) (box : List Nat)
    (h : Frac.le (bestOf probs box).1 ((fr 0 1).add EPS)) :
    selectForBox probs box = [(box, (bestOf probs box).1)] := by
  unfold selectForBox
  rw [if_pos h]

theorem selectForBox_two (probs : List (List Frac)) (box : List Nat) (i : Nat)
    (hc : ¬ Frac.le (bestOf probs box).1 ((fr 0 1).add EPS))
    (hmp : multiPositions (bestOf probs box).2 = [i])
    (hlen : (posVals (bestOf probs box).2 i).length = 2) :
    selectForBox probs box =
      (collectVariants i (bestOf probs box).2 []).map
        (fun kv => (kv.2, (bestOf probs box).1)) := by
  simp only [selectForBox, if_neg hc, hmp, if_pos hlen]

theorem selectForBox_oneA (probs : List (List Frac)) (box : List Nat) (i : Nat)
    (hc : ¬ Frac.le (bestOf probs box).1 ((fr 0 1).add EPS))
    (hmp : multiPositions (bestOf probs box).2 = [i])
    (hlen : ¬ (posVals (bestOf probs box).2 i).length = 2) :
    selectForBox probs box = selectOne (bestOf probs box).2 (bestOf probs box).1 := by
  simp only [selectForBox, if_neg hc, hmp, if_neg hlen]

theorem selectForBox_oneB (probs : List (List Frac)) (box : List Nat)
    (hc : ¬ Frac.le (bestOf probs box).1 ((fr 0 1).add EPS))
    (hmp : multiPositions (bestOf probs box).2 = []) :
    selectForBox probs box = selectOne (bestOf probs box).2 (bestOf probs box).1 := by
  simp only [selectForBox, if_neg hc, hmp]

theorem selectForBox_oneC (probs : List (List Frac)) (box : List Nat) (i j : Nat)
    (tl : List Nat)
    (hc : ¬ Frac.le (bestOf probs box).1 ((fr 0 1).add EPS))
    (hmp : multiPositions (bestOf probs box).2 = i :: j :: tl) :
    selectForBox probs box = selectOne (bestOf probs box).2 (bestOf probs box).1 := by
  simp only [selectForBox, if_neg hc, hmp]

theorem not_collapse_of_gt (probs : List (List Frac)) (box : List Nat)
    (h : Frac.lt EPS (bestOf probs box).1) :
    ¬ Frac.le (bestOf probs box).1 ((fr 0 1).add EPS) := by
  intro hle
  have h1 := (Frac.lt_iff _ _).1 h
  have h2 := (Frac.le_iff _ _).1 hle
  rw [Frac.val_add, val_zeroFr, val_EPS] at h2
  rw [val_EPS] at h1
  linarith

/-- Claim C2: for a kept box whose best product score exceeds EPS, if
exactly one of the 5 positions shows exactly two distinct digits across
the tied best permutations then exactly two straights are emitted, one
per value at that position; in every other case exactly one straight is
emitted, the lexicographically smallest of the tied best permutations. -/
theorem claim_C2 : ∀ (probs : List (List Frac)) (box : List Nat),
    Frac.lt EPS (bestOf probs box).1 →
    ((∀ i : Nat, multiPositions (bestOf probs box).2 = [i] →
        (posVals (bestOf probs box).2 i).length = 2 →
        (selectForBox probs box).length = 2 ∧
        ((selectForBox probs box).map (fun e => e.1.getD i 0)).Nodup ∧
        (∀ e ∈ selectForBox probs box,
          e.2 = (bestOf probs box).1 ∧ e.1 ∈ (bestOf probs box).2 ∧
          e.1.getD i 0 ∈ posVals (bestOf probs box).2 i)) ∧
     ((¬ ∃ i : Nat, multiPositions (bestOf probs box).2 = [i] ∧
          (posVals (bestOf probs box).2 i).length = 2) →
        ∃ m, selectForBox probs box = [(m, (bestOf probs box).1)] ∧
          m ∈ (bestOf probs box).2 ∧
          ∀ p ∈ (bestOf probs box).2, lexLt p m = false)) := by
  intro probs box h
  have hc := not_collapse_of_gt probs box h
  constructor
  · intro i hmp hlen
    have hsel := selectForBox_two probs box i hc hmp hlen
    obtain ⟨a, b, hab2⟩ := List.length_eq_two.1 hlen
    have hnd : (posVals (bestOf probs box).2 i).Nodup := List.nodup_dedup _
    rw [hab2] at hnd
    have hab : a ≠ b := by simpa using hnd
    have hamem : a ∈ ((bestOf probs box).2).map (fun p => p.getD i 0) :=
      List.mem_dedup.1 (by rw [posVals] at hab2; rw [hab2]; simp)
    have hbmem : b ∈ ((bestOf probs box).2).map (fun p => p.getD i 0) :=
      List.mem_dedup.1 (by rw [posVals] at hab2; rw [hab2]; simp)
    have hge := collect_len_ge i (bestOf probs box).2 [] a b hab (by simp)
      (by simpa using hamem) (by simpa using hbmem)
    have hle := collect_len_le i (bestOf probs box).2 [] (by simp)
    have hcv2 : (collectVariants i (bestOf probs box).2 []).length = 2 := le_antisymm hle hge
    have hkeys : ∀ kv ∈ collectVariants i (bestOf probs box).2 [],
        kv.2 ∈ (bestOf probs box).2 ∧ kv.1 = kv.2.getD i 0 := by
      intro kv hkv
      rcases collect_sub i (bestOf probs box).2 [] kv hkv with hfalse | hgood
      · simp at hfalse
      · exact hgood
    refine ⟨?_, ?_, ?_⟩
    · rw [hsel, List.length_map, hcv2]
    · rw [hsel, List.map_map]
      have hmapeq : (collectVariants i (bestOf probs box).2 []).map
          ((fun e : List Nat × Frac => e.1.getD i 0) ∘ (fun kv : Nat × List Nat => (kv.2, (bestOf probs box).1)))
          = (collectVariants i (bestOf probs box).2 []).map Prod.fst := by
        apply List.map_congr_left
        intro kv hkv
        exact ((hkeys kv hkv).2).symm
      rw [hmapeq]
      exact collect_keys_nodup i (bestOf probs box).2 [] (by simp)
    · intro e he
      rw [hsel] at he
      rcases List.mem_map.1 he with ⟨kv, hkv, rfl⟩
      obtain ⟨hmem, hkey⟩ := hkeys kv hkv
      refine ⟨rfl, hmem, ?_⟩
      rw [posVals]
      apply List.mem_dedup.2
      exact List.mem_map.2 ⟨kv.2, hmem, rfl⟩
  · intro hnex
    have hne := bestOf_ne_nil_of_gt probs box h
    obtain ⟨p0, ps, hbp⟩ := List.exists_cons_of_ne_nil hne
    have hone : selectForBox probs box =
        selectOne (bestOf probs box).2 (bestOf probs box).1 := by
      rcases hshape : multiPositions (bestOf probs box).2 with _ | ⟨i, _ | ⟨j, tl⟩⟩
      · exact selectForBox_oneB probs box hc hshape
      · have hlen2 : ¬ (posVals (bestOf probs box).2 i).length = 2 :=
          fun hl => hnex ⟨i, hshape, hl⟩
        exact selectForBox_oneA probs box i hc hshape hlen2
      · exact selectForBox_oneC probs box i j tl hc hshape
    refine ⟨listMin p0 ps, ?_, ?_, ?_⟩
    · rw [hone, hbp]
      rfl
    · rw [hbp]
      exact listMin_mem p0 ps
    · intro p hp
      rw [hbp] at hp
      exact listMin_least p0 ps p hp

/-! ### Scores under degenerate profiles -/

theorem getD_replicate_self {α : Type} (n : Nat) (a : α) (i : Nat) :
    (List.replicate n a).getD i a = a := by
  by_cases h : i < n
  · rw [List.getD_eq_getElem _ _ (by simpa using h)]
    exact List.getElem_replicate a _
  · rw [List.getD_eq_default]
    simpa using h

theorem zeroProfile_factor (i dval : Nat) :
    ((zeroProfile.getD i zeroRow).getD dval (fr 0 1)) = fr 0 1 := by
  have h1 : zeroProfile.getD i zeroRow = zeroRow := getD_replicate_self 5 zeroRow i
  rw [h1]
  exact getD_replicate_self 10 (fr 0 1) dval

theorem foldl_mul_num (l : List Frac) : ∀ acc : Frac,
    (l.foldl Frac.mul acc).num = acc.num * (l.map Frac.num).prod := by
  induction l with
  | nil => intro acc; simp
  | cons x t ih =>
      intro acc
      simp only [List.foldl_cons, List.map_cons, List.prod_cons, ih]
      show (acc.mul x).num * _ = _
      unfold Frac.mul
      ring

theorem score_zeroProfile (p : List Nat) (h : p ≠ []) :
    (straight_score p zeroProfile).num = 0 := by
  obtain ⟨d0, rest, rfl⟩ := List.exists_cons_of_ne_nil h
  unfold straight_score
  rw [foldl_mul_num]
  have hhead : (0 : Int) ∈ (((d0 :: rest).enum.map
      (fun pr => (zeroProfile.getD pr.1 zeroRow).getD pr.2 (fr 0 1))).map Frac.num) := by
    rw [List.enum_cons]
    simp only [List.map_cons, List.mem_cons]
    left
    rw [zeroProfile_factor]
    rfl
  rw [List.prod_eq_zero hhead]
  ring

theorem distinctPerms_ne_nil (box : List Nat) : distinctPerms box ≠ [] := by
  have hmem : box ∈ distinctPerms box :=
    List.mem_dedup.2 (List.mem_permutations'.2 (List.Perm.refl box))
  exact List.ne_nil_of_mem hmem

theorem mem_distinctPerms_ne_nil (box : List Nat) (hbox : box ≠ []) :
    ∀ p ∈ distinctPerms box, p ≠ [] := by
  intro p hp hnil
  have hperm : p.Perm box := List.mem_permutations'.1 (List.mem_dedup.1 hp)
  subst hnil
  exact hbox (List.Perm.eq_nil hperm.symm)

theorem bestFold_keep_zero (probs : List (List Frac)) (l : List (List Nat)) :
    ∀ st : Frac × List (List Nat), st.1.num = 0 →
      (∀ p ∈ l, (straight_score p probs).num = 0) →
      (l.foldl (scoreStep probs) st).1 = st.1 := by
  induction l with
  | nil => intro st _ _; rfl
  | cons q rest ih =>
      intro st hz hall
      have hsq : (straight_score q probs).num = 0 := hall q (by simp)
      have hb1 : ¬ Frac.lt (st.1.add EPS) (straight_score q probs) := by
        intro hlt
        have h2 := (Frac.lt_iff _ _).1 hlt
        rw [Frac.val_add, Frac.val_zero_of_num st.1 hz, val_EPS,
          Frac.val_zero_of_num _ hsq] at h2
        norm_num at h2
      have hstep : scoreStep probs st q =
          if Frac.le ((straight_score q probs).sub st.1).abs EPS
          then (st.1, st.2 ++ [q]) else st := by
        unfold scoreStep
        rw [if_neg hb1]
      rw [List.foldl_cons, hstep]
      split_ifs with hb2
      · exact ih (st.1, st.2 ++ [q]) hz (fun p hp => hall p (by simp [hp]))
      · exact ih st hz (fun p hp => hall p (by simp [hp]))

theorem bestOf_zeroProfile (box : List Nat) (hbox : box ≠ []) :
    ((bestOf zeroProfile box).1).num = 0 := by
  obtain ⟨q, rest, hcons⟩ := List.exists_cons_of_ne_nil (distinctPerms_ne_nil box)
  have hq : q ∈ distinctPerms box := by rw [hcons]; simp
  have hallz : ∀ p ∈ distinctPerms box, (straight_score p zeroProfile).num = 0 :=
    fun p hp => score_zeroProfile p (mem_distinctPerms_ne_nil box hbox p hp)
  have hsq : (straight_score q zeroProfile).num = 0 := hallz q hq
  have hb1 : Frac.lt ((fr (-1) 1).add EPS) (straight_score q zeroProfile) := by
    rw [Frac.lt_iff, Frac.val_add, val_negOneFr, val_EPS, Frac.val_zero_of_num _ hsq]
    norm_num
  unfold bestOf
  rw [hcons, List.foldl_cons]
  have hstep : scoreStep zeroProfile (fr (-1) 1, []) q =
      (straight_score q zeroProfile, [q]) := by
    unfold scoreStep
    rw [if_pos hb1]
  rw [hstep]
  rw [bestFold_keep_zero zeroProfile rest (straight_score q zeroProfile, [q]) hsq
    (fun p hp => hallz p (by rw [hcons]; simp [hp]))]
  exact hsq

/-- Claim C3: when the best product score of a kept box is at most EPS,
exactly one straight is emitted, the box's own sorted digit sequence;
with the all-zero profile every box scores 0 and yields its canonical
straight; the point-mass-on-7 profile on box (1,3,7,7,9) emits exactly
the straight "13779" with score 0. -/
theorem claim_C3 :
    (∀ (probs : List (List Frac)) (box : List Nat), box.Chain' (· ≤ ·) →
      Frac.le (bestOf probs box).1 ((fr 0 1).add EPS) →
      selectForBox probs box = [(box, (bestOf probs box).1)]) ∧
    (∀ box : List Nat, box ≠ [] →
      selectForBox zeroProfile box = [(box, (bestOf zeroProfile box).1)] ∧
      ((bestOf zeroProfile box).1).num = 0) ∧
    selectForBox sevenProfile [1, 3, 7, 7, 9] = [([1, 3, 7, 7, 9], fr 0 1)] ∧
    render [1, 3, 7, 7, 9] = "13779" := by
  refine ⟨?_, ?_, by decide, by decide⟩
  · intro probs box _ hle
    exact selectForBox_collapse probs box hle
  · intro box hbox
    have hz := bestOf_zeroProfile box hbox
    have hle : Frac.le (bestOf zeroProfile box).1 ((fr 0 1).add EPS) := by
      rw [Frac.le_iff, Frac.val_add, val_zeroFr, val_EPS, Frac.val_zero_of_num _ hz]
      norm_num
    exact ⟨selectForBox_collapse zeroProfile box hle, hz⟩

theorem claim_C2_witness :
    Frac.lt EPS (bestOf probs0 [0, 0, 0, 0, 2]).1 ∧
    (∃ m, selectForBox probs0 [0, 0, 0, 0, 2] = [(m, (bestOf probs0 [0, 0, 0, 0, 2]).1)] ∧
      m ∈ (bestOf probs0 [0, 0, 0, 0, 2]).2 ∧
      ∀ p ∈ (bestOf probs0 [0, 0, 0, 0, 2]).2, lexLt p m = false) := by
  have h : Frac.lt EPS (bestOf probs0 [0, 0, 0, 0, 2]).1 := by decide
  refine ⟨h, (claim_C2 probs0 [0, 0, 0, 0, 2] h).2 ?_⟩
  rintro ⟨i, hmp, _⟩
  have hnil : multiPositions (bestOf probs0 [0, 0, 0, 0, 2]).2 = [] := by decide
  rw [hnil] at hmp
  exact List.noConfusion hmp

/-! ### Non-negative profiles -/

theorem factor_nonneg (probs : List (List Frac))
    (hnn : ∀ row ∈ probs, ∀ x ∈ row, 0 ≤ x.num) (i dval : Nat) :
    0 ≤ ((probs.getD i zeroRow).getD dval (fr 0 1)).num := by
  by_cases hi : i < probs.length
  · rw [List.getD_eq_getElem probs zeroRow hi]
    by_cases hd : dval < probs[i].length
    · rw [List.getD_eq_getElem probs[i] (fr 0 1) hd]
      exact hnn probs[i] (List.getElem_mem hi) _ (List.getElem_mem hd)
    · rw [List.getD_eq_default probs[i] (fr 0 1) (by omega)]
      norm_num [fr]
  · rw [List.getD_eq_default probs zeroRow (by omega)]
    rw [show (zeroRow.getD dval (fr 0 1)) = fr 0 1 from getD_replicate_self 10 (fr 0 1) dval]
    norm_num [fr]

theorem intProd_nonneg (l : List Int) (h : ∀ x ∈ l, 0 ≤ x) : 0 ≤ l.prod := by
  induction l with
  | nil => simp
  | cons x t ih =>
      rw [List.prod_cons]
      exact mul_nonneg (h x (by simp)) (ih (fun y hy => h y (by simp [hy])))

theorem score_nonneg (probs : List (List Frac))
    (hnn : ∀ row ∈ probs, ∀ x ∈ row, 0 ≤ x.num) (p : List Nat) :
    0 ≤ (straight_score p probs).num := by
  unfold straight_score
  rw [foldl_mul_num]
  have h1 : (fr 1 1).num = 1 := rfl
  rw [h1, one_mul]
  apply intProd_nonneg
  intro x hx
  rcases List.mem_map.1 hx with ⟨f, hf, rfl⟩
  rcases List.mem_map.1 hf with ⟨pr, _, rfl⟩
  exact factor_nonneg probs hnn pr.1 pr.2

theorem bp_perm (probs : List (List Frac)) (box : List Nat) :
    ∀ p ∈ (bestOf probs box).2, p.Perm box := by
  intro p hp
  exact List.mem_permutations'.1 (List.mem_dedup.1 (bestOf_mem_perms probs box p hp))

theorem bestOf_snd_ne_nil_of_nonneg (probs : List (List Frac)) (box : List Nat)
    (hnn : ∀ row ∈ probs, ∀ x ∈ row, 0 ≤ x.num) :
    (bestOf probs box).2 ≠ [] := by
  obtain ⟨q, rest, hcons⟩ := List.exists_cons_of_ne_nil (distinctPerms_ne_nil box)
  have hb1 : Frac.lt ((fr (-1) 1).add EPS) (straight_score q probs) := by
    rw [Frac.lt_iff, Frac.val_add, val_negOneFr, val_EPS]
    have := Frac.val_nonneg_of_num _ (score_nonneg probs hnn q)
    linarith
  unfold bestOf
  rw [hcons, List.foldl_cons]
  have hstep : scoreStep probs (fr (-1) 1, []) q = (straight_score q probs, [q]) := by
    unfold scoreStep
    rw [if_pos hb1]
  rw [hstep]
  exact bestFold_ne_nil probs rest _ (by simp)

/-- Claim C10: for every kept box processed with a non-empty profile of
non-negative rows, the tied-best set is never empty, at least one output
entry is emitted for the box, and every emitted straight is a
rearrangement of exactly the box's digits. -/
theorem claim_C10 : ∀ (probs : List (List Frac)) (box : List Nat),
    probs ≠ [] → (∀ row ∈ probs, ∀ x ∈ row, 0 ≤ x.num) →
    (bestOf probs box).2 ≠ [] ∧
    selectForBox probs box ≠ [] ∧
    ∀ e ∈ selectForBox probs box, e.1.Perm box := by
  intro probs box _ hnn
  have hbp := bestOf_snd_ne_nil_of_nonneg probs box hnn
  refine ⟨hbp, ?_, ?_⟩
  · by_cases hcol : Frac.le (bestOf probs box).1 ((fr 0 1).add EPS)
    · rw [selectForBox_collapse probs box hcol]
      simp
    · rcases hshape : multiPositions (bestOf probs box).2 with _ | ⟨i, _ | ⟨j, tl⟩⟩
      · rw [selectForBox_oneB probs box hcol hshape]
        obtain ⟨p0, ps, hbp2⟩ := List.exists_cons_of_ne_nil hbp
        rw [hbp2]
        simp [selectOne]
      · by_cases hlen : (posVals (bestOf probs box).2 i).length = 2
        · rw [selectForBox_two probs box i hcol hshape hlen]
          obtain ⟨a, b, hab2⟩ := List.length_eq_two.1 hlen
          have hnd : (posVals (bestOf probs box).2 i).Nodup := List.nodup_dedup _
          rw [hab2] at hnd
          have hab : a ≠ b := by simpa using hnd
          have hamem : a ∈ ((bestOf probs box).2).map (fun p => p.getD i 0) :=
            List.mem_dedup.1 (by rw [posVals] at hab2; rw [hab2]; simp)
          have hbmem : b ∈ ((bestOf probs box).2).map (fun p => p.getD i 0) :=
            List.mem_dedup.1 (by rw [posVals] at hab2; rw [hab2]; simp)
          have hge := collect_len_ge i (bestOf probs box).2 [] a b hab (by simp)
            (by simpa using hamem) (by simpa using hbmem)
          intro hnil
          rw [List.map_eq_nil_iff] at hnil
          rw [hnil] at hge
          simp at hge
        · rw [selectForBox_oneA probs box i hcol hshape hlen]
          obtain ⟨p0, ps, hbp2⟩ := List.exists_cons_of_ne_nil hbp
          rw [hbp2]
          simp [selectOne]
      · rw [selectForBox_oneC probs box i j tl hcol hshape]
        obtain ⟨p0, ps, hbp2⟩ := List.exists_cons_of_ne_nil hbp
        rw [hbp2]
        simp [selectOne]
  · intro e he
    by_cases hcol : Frac.le (bestOf probs box).1 ((fr 0 1).add EPS)
    · rw [selectForBox_collapse probs box hcol] at he
      simp only [List.mem_singleton] at he
      rw [he]
    · rcases hshape : multiPositions (bestOf probs box).2 with _ | ⟨i, _ | ⟨j, tl⟩⟩
      · rw [selectForBox_oneB probs box hcol hshape] at he
        obtain ⟨p0, ps, hbp2⟩ := List.exists_cons_of_ne_nil hbp
        rw [hbp2] at he
        simp only [selectOne, List.mem_singleton] at he
        rw [he]
        exact bp_perm probs box _ (hbp2 ▸ listMin_mem p0 ps)
      · by_cases hlen : (posVals (bestOf probs box).2 i).length = 2
        · rw [selectForBox_two probs box i hcol hshape hlen] at he
          rcases List.mem_map.1 he with ⟨kv, hkv, rfl⟩
          rcases collect_sub i (bestOf probs box).2 [] kv hkv with hf | hgood
          · simp at hf
          · exact bp_perm probs box kv.2 hgood.1
        · rw [selectForBox_oneA probs box i hcol hshape hlen] at he
          obtain ⟨p0, ps, hbp2⟩ := List.exists_cons_of_ne_nil hbp
          rw [hbp2] at he
          simp only [selectOne, List.mem_singleton] at he
          rw [he]
          exact bp_perm probs box _ (hbp2 ▸ listMin_mem p0 ps)
      · rw [selectForBox_oneC probs box i j tl hcol hshape] at he
        obtain ⟨p0, ps, hbp2⟩ := List.exists_cons_of_ne_nil hbp
        rw [hbp2] at he
        simp only [selectOne, List.mem_singleton] at he
        rw [he]
        exact bp_perm probs box _ (hbp2 ▸ listMin_mem p0 ps)

theorem claim_C10_witness :
    probs0 ≠ [] ∧ (∀ row ∈ probs0, ∀ x ∈ row, 0 ≤ x.num) ∧
    ((bestOf probs0 [0, 0, 0, 1, 1]).2 ≠ [] ∧
      selectForBox probs0 [0, 0, 0, 1, 1] ≠ [] ∧
      ∀ e ∈ selectForBox probs0 [0, 0, 0, 1, 1], e.1.Perm [0, 0, 0, 1, 1]) :=
  ⟨by decide, by decide, claim_C10 probs0 [0, 0, 0, 1, 1] (by decide) (by decide)⟩

/-! ### Row normalization -/

theorem foldl_add_num_zero (row : List Frac) : ∀ acc : Frac, acc.num = 0 →
    (∀ x ∈ row, x.num = 0) → (row.foldl Frac.add acc).num = 0 := by
  induction row with
  | nil => intro acc h _; exact h
  | cons x t ih =>
      intro acc hacc hall
      rw [List.foldl_cons]
      apply ih
      · show acc.num * x.den + x.num * acc.den = 0
        rw [hacc, hall x (by simp)]
        ring
      · intro y hy
        exact hall y (by simp [hy])

theorem rowSum_num_zero (row : List Frac) (h : ∀ x ∈ row, x.num = 0) :
    (rowSum row).num = 0 :=
  foldl_add_num_zero row (fr 0 1) rfl h

theorem foldl_add_val (row : List Frac) : ∀ acc : Frac,
    (row.foldl Frac.add acc).val = acc.val + (row.map Frac.val).sum := by
  induction row with
  | nil => intro acc; simp
  | cons x t ih =>
      intro acc
      rw [List.foldl_cons, ih, Frac.val_add]
      simp only [List.map_cons, List.sum_cons]
      ring

theorem rowSum_val (row : List Frac) : (rowSum row).val = (row.map Frac.val).sum := by
  unfold rowSum
  rw [foldl_add_val, val_zeroFr, zero_add]

theorem sum_map_divc (l : List ℚ) (c : ℚ) :
    ((l.map (fun v => v / c)).sum) = l.sum / c := by
  induction l with
  | nil => simp
  | cons x t ih => simp [ih, add_div]

theorem val_fr100 : (fr 100 1).val = 100 := by
  rw [val_fr _ _ (by norm_num)]
  norm_num

/-- Claim C7 (amended): rows with raw sum in [99.5, 100.5] are divided by
100 and then sum to exactly (raw sum)/100, which lies in [0.995, 1.005]
but is 1 only when the raw sum is exactly 100; rows with sum in
[0.99, 1.01] are returned unchanged; any other row with positive sum is
rescaled by its own sum and then sums to exactly 1; an all-zero row is
returned unchanged and a profile whose row at a position is all zeros
gives every straight score 0. -/
theorem claim_C7_amended : ∀ row : List Frac,
    (Frac.le (fr 199 2) (rowSum row) → Frac.le (rowSum row) (fr 201 2) →
      normalize_row row = row.map (fun x => x.div (fr 100 1)) ∧
      Frac.val (rowSum (normalize_row row)) = Frac.val (rowSum row) / 100 ∧
      199 / 200 ≤ Frac.val (rowSum (normalize_row row)) ∧
      Frac.val (rowSum (normalize_row row)) ≤ 201 / 200) ∧
    (¬ (Frac.le (fr 199 2) (rowSum row) ∧ Frac.le (rowSum row) (fr 201 2)) →
      Frac.le (fr 99 100) (rowSum row) → Frac.le (rowSum row) (fr 101 100) →
      normalize_row row = row) ∧
    (¬ (Frac.le (fr 199 2) (rowSum row) ∧ Frac.le (rowSum row) (fr 201 2)) →
      ¬ (Frac.le (fr 99 100) (rowSum row) ∧ Frac.le (rowSum row) (fr 101 100)) →
      Frac.lt (fr 0 1) (rowSum row) →
      Frac.val (rowSum (normalize_row row)) = 1) ∧
    ((∀ x ∈ row, x.num = 0) → normalize_row row = row) ∧
    (∀ (probs : List (List Frac)) (straight : List Nat) (i : Nat), i < straight.length →
      (∀ x ∈ probs.getD i zeroRow, x.num = 0) →
      (straight_score straight probs).num = 0) := by
  intro row
  refine ⟨?_, ?_, ?_, ?_, ?_⟩
  · intro h1 h2
    have hsel : normalize_row row = row.map (fun x => x.div (fr 100 1)) := by
      unfold normalize_row
      rw [if_pos ⟨h1, h2⟩]
    have hmap : (row.map (fun x => x.div (fr 100 1))).map Frac.val =
        (row.map Frac.val).map (fun v => v / 100) := by
      rw [List.map_map, List.map_map]
      apply List.map_congr_left
      intro x _
      show (x.div (fr 100 1)).val = x.val / 100
      rw [Frac.val_div x (fr 100 1) (by norm_num [fr]), val_fr100]
    have hsum : Frac.val (rowSum (normalize_row row)) = Frac.val (rowSum row) / 100 := by
      rw [hsel, rowSum_val, hmap, sum_map_divc, ← rowSum_val]
    have hv1 : (199 : ℚ) / 2 ≤ (rowSum row).val := by
      have hq := (Frac.le_iff _ _).1 h1
      rw [val_fr _ _ (by norm_num)] at hq
      push_cast at hq
      linarith
    have hv2 : (rowSum row).val ≤ (201 : ℚ) / 2 := by
      have hq := (Frac.le_iff _ _).1 h2
      rw [val_fr _ _ (by norm_num)] at hq
      push_cast at hq
      linarith
    refine ⟨hsel, hsum, ?_, ?_⟩
    · rw [hsum]
      linarith
    · rw [hsum]
      linarith
  · intro hn1 h1 h2
    unfold normalize_row
    rw [if_neg hn1, if_pos ⟨h1, h2⟩]
  · intro hn1 hn2 hpos
    have hvpos : 0 < (rowSum row).val := by
      have hq := (Frac.lt_iff _ _).1 hpos
      rw [val_zeroFr] at hq
      exact hq
    have hnum : 0 < (rowSum row).num := by
      by_contra hc
      push_neg at hc
      have hval : (rowSum row).val ≤ 0 := by
        unfold Frac.val
        apply div_nonpos_of_nonpos_of_nonneg
        · exact_mod_cast hc
        · positivity
      linarith
    have hsel : normalize_row row = row.map (fun x => x.div (rowSum row)) := by
      unfold normalize_row
      rw [if_neg hn1, if_neg hn2, if_pos hpos]
    have hmap : (row.map (fun x => x.div (rowSum row))).map Frac.val =
        (row.map Frac.val).map (fun v => v / (rowSum row).val) := by
      rw [List.map_map, List.map_map]
      apply List.map_congr_left
      intro x _
      show (x.div (rowSum row)).val = x.val / (rowSum row).val
      rw [Frac.val_div x (rowSum row) hnum]
    rw [hsel, rowSum_val, hmap, sum_map_divc, ← rowSum_val]
    exact div_self (ne_of_gt hvpos)
  · intro hz
    have hnum : (rowSum row).num = 0 := rowSum_num_zero row hz
    have hval : (rowSum row).val = 0 := Frac.val_zero_of_num _ hnum
    unfold normalize_row
    rw [if_neg, if_neg, if_neg]
    · intro hc
      have hq := (Frac.lt_iff _ _).1 hc
      rw [val_zeroFr, hval] at hq
      norm_num at hq
    · intro hc
      have hq := (Frac.le_iff _ _).1 hc.1
      rw [hval, val_fr _ _ (by norm_num)] at hq
      push_cast at hq
      linarith
    · intro hc
      have hq := (Frac.le_iff _ _).1 hc.1
      rw [hval, val_fr _ _ (by norm_num)] at hq
      push_cast at hq
      linarith
  · intro probs straight i hi hz
    unfold straight_score
    rw [foldl_mul_num]
    have hfz : ((probs.getD i zeroRow).getD (straight.getD i 0) (fr 0 1)).num = 0 := by
      by_cases hd : straight.getD i 0 < (probs.getD i zeroRow).length
      · rw [List.getD_eq_getElem (probs.getD i zeroRow) (fr 0 1) hd]
        exact hz _ (List.getElem_mem hd)
      · rw [List.getD_eq_default (probs.getD i zeroRow) (fr 0 1) (by omega)]
        rfl
    have hpr : (i, straight.getD i 0) ∈ straight.enum := by
      rw [List.mk_mem_enum_iff_getElem?]
      rw [List.getElem?_eq_getElem hi]
      rw [List.getD_eq_getElem straight 0 hi]
    have h2 : ((probs.getD i zeroRow).getD (straight.getD i 0) (fr 0 1)) ∈
        straight.enum.map (fun pr => (probs.getD pr.1 zeroRow).getD pr.2 (fr 0 1)) :=
      List.mem_map.2 ⟨(i, straight.getD i 0), hpr, rfl⟩
    have hmem : ((probs.getD i zeroRow).getD (straight.getD i 0) (fr 0 1)).num ∈
        ((straight.enum.map
          (fun pr => (probs.getD pr.1 zeroRow).getD pr.2 (fr 0 1))).map Frac.num) :=
      List.mem_map.2 ⟨_, h2, rfl⟩
    rw [hfz] at hmem
    rw [List.prod_eq_zero hmem]
    ring

/-- Counterexample to claim C7 as stated: the row (99.5, 0, ..., 0) has
positive raw sum and is accepted by the percentage branch, yet its
normalized sum is 199/200, not 1. -/
theorem claim_C7_counterexample :
    0 < (rowSum row99).num ∧
    Frac.le (fr 199 2) (rowSum row99) ∧ Frac.le (rowSum row99) (fr 201 2) ∧
    Frac.eqv (rowSum (normalize_row row99)) (fr 199 200) ∧
    ¬ Frac.eqv (rowSum (normalize_row row99)) (fr 1 1) := by
  decide

theorem claim_C7_witness :
    Frac.le (fr 199 2) (rowSum row99) ∧ Frac.le (rowSum row99) (fr 201 2) ∧
    (normalize_row row99 = row99.map (fun x => x.div (fr 100 1)) ∧
      Frac.val (rowSum (normalize_row row99)) = Frac.val (rowSum row99) / 100 ∧
      199 / 200 ≤ Frac.val (rowSum (normalize_row row99)) ∧
      Frac.val (rowSum (normalize_row row99)) ≤ 201 / 200) := by
  have h1 : Frac.le (fr 199 2) (rowSum row99) := by decide
  have h2 : Frac.le (rowSum row99) (fr 201 2) := by decide
  exact ⟨h1, h2, (claim_C7_amended row99).1 h1 h2⟩

/-! ### The output ranking order -/

theorem lexLt_false_trans {a b c : List Nat} (h1 : lexLt a b = false) (h2 : lexLt b c = false) :
    lexLt a c = false := by
  by_contra hc
  have hac : lexLt a c = true := by
    cases hv : lexLt a c with
    | false => exact absurd hv hc
    | true => rfl
  rcases lexLt_tri a b with hab | rfl | hba
  · rw [hab] at h1
    exact Bool.noConfusion h1
  · rw [hac] at h2
    exact Bool.noConfusion h2
  · rcases lexLt_tri b c with hbc | rfl | hcb
    · rw [hbc] at h2
      exact Bool.noConfusion h2
    · have hasym := lexLt_asymm hac
      rw [hasym] at hba
      exact Bool.noConfusion hba
    · have hca := lexLt_trans hcb hba
      have hasym := lexLt_asymm hac
      rw [hasym] at hca
      exact Bool.noConfusion hca

theorem entryRel_iff (u v : List Nat × Frac) :
    entryRel u v ↔
      (Frac.val v.2 < Frac.val u.2 ∨
        (Frac.val v.2 = Frac.val u.2 ∧ lexLt v.1 u.1 = false)) := by
  unfold entryRel entryLe
  simp only [Bool.or_eq_true, Bool.and_eq_true, decide_eq_true_eq, Bool.not_eq_true',
    Frac.lt_iff, Frac.eqv_iff]

theorem entryRel_total (u v : List Nat × Frac) : entryRel u v ∨ entryRel v u := by
  rw [entryRel_iff, entryRel_iff]
  rcases lt_trichotomy (Frac.val u.2) (Frac.val v.2) with h | h | h
  · right
    exact Or.inl h
  · rcases lexLt_tri u.1 v.1 with hl | heq | hl
    · left
      exact Or.inr ⟨h.symm, lexLt_asymm hl⟩
    · left
      refine Or.inr ⟨h.symm, ?_⟩
      rw [heq]
      exact lexLt_irrefl _
    · right
      exact Or.inr ⟨h, lexLt_asymm hl⟩
  · left
    exact Or.inl h

theorem entryRel_trans (u v w : List Nat × Frac) (h1 : entryRel u v) (h2 : entryRel v w) :
    entryRel u w := by
  rw [entryRel_iff] at h1 h2 ⊢
  rcases h1 with h1 | ⟨h1e, h1l⟩
  · rcases h2 with h2 | ⟨h2e, _⟩
    · exact Or.inl (lt_trans h2 h1)
    · exact Or.inl (h2e ▸ h1)
  · rcases h2 with h2 | ⟨h2e, h2l⟩
    · exact Or.inl (h1e ▸ h2)
    · exact Or.inr ⟨h2e.trans h1e, lexLt_false_trans h2l h1l⟩

theorem rankOutputs_chain (outs : List (List Nat × Frac)) :
    List.Chain' entryRel (rankOutputs outs) := by
  haveI : IsTotal (List Nat × Frac) entryRel := ⟨entryRel_total⟩
  haveI : IsTrans (List Nat × Frac) entryRel := ⟨entryRel_trans⟩
  exact (List.sorted_insertionSort entryRel outs).chain'

theorem selectForBox_snd (probs : List (List Frac)) (box : List Nat) :
    ∀ e ∈ selectForBox probs box, e.2 = (bestOf probs box).1 := by
  intro e he
  by_cases hcol : Frac.le (bestOf probs box).1 ((fr 0 1).add EPS)
  · rw [selectForBox_collapse probs box hcol] at he
    simp only [List.mem_singleton] at he
    rw [he]
  · rcases hshape : multiPositions (bestOf probs box).2 with _ | ⟨i, _ | ⟨j, tl⟩⟩
    · rw [selectForBox_oneB probs box hcol hshape] at he
      rcases hbp : (bestOf probs box).2 with _ | ⟨p0, ps⟩
      · rw [hbp] at he
        simp [selectOne] at he
      · rw [hbp] at he
        simp only [selectOne, List.mem_singleton] at he
        rw [he]
    · by_cases hlen : (posVals (bestOf probs box).2 i).length = 2
      · rw [selectForBox_two probs box i hcol hshape hlen] at he
        rcases List.mem_map.1 he with ⟨kv, _, rfl⟩
        rfl
      · rw [selectForBox_oneA probs box i hcol hshape hlen] at he
        rcases hbp : (bestOf probs box).2 with _ | ⟨p0, ps⟩
        · rw [hbp] at he
          simp [selectOne] at he
        · rw [hbp] at he
          simp only [selectOne, List.mem_singleton] at he
          rw [he]
    · rw [selectForBox_oneC probs box i j tl hcol hshape] at he
      rcases hbp : (bestOf probs box).2 with _ | ⟨p0, ps⟩
      · rw [hbp] at he
        simp [selectOne] at he
      · rw [hbp] at he
        simp only [selectOne, List.mem_singleton] at he
        rw [he]

/-- Counterexample to claim C1 as stated: both boxes of `cs0` are kept,
their best straights have exactly equal product scores, and the ranked
output puts "00002" before "01100" although the spec's additive score of
"00002" is strictly smaller — the additive score is not computed and is
not the secondary tie-break key; the tie is broken by the string alone. -/
theorem claim_C1_counterexample :
    [0, 0, 0, 0, 2] ∈ (generate_boxes cs0).1 ∧
    [0, 0, 0, 1, 1] ∈ (generate_boxes cs0).1 ∧
    (rankOutputs (select_straights probs0 [[0, 0, 0, 0, 2], [0, 0, 0, 1, 1]])).map
      (fun e => render e.1) = ["00002", "01100"] ∧
    Frac.eqv
      ((select_straights probs0 [[0, 0, 0, 0, 2], [0, 0, 0, 1, 1]]).getD 0 ([], fr 0 1)).2
      ((select_straights probs0 [[0, 0, 0, 0, 2], [0, 0, 0, 1, 1]]).getD 1 ([], fr 0 1)).2 ∧
    Frac.lt (spec_additive_score [0, 0, 0, 0, 2] probs0)
      (spec_additive_score [0, 1, 1, 0, 0] probs0) := by
  decide

/-- Claim C1 (amended): the scorer computes only the product score; every
scored output entry is the pair of a straight and its box's best product
score, and on product-score ties the ranked output is ordered by the
straight string alone (no additive score exists or is used). -/
theorem claim_C1_amended :
    (∀ (probs : List (List Frac)) (boxes : List (List Nat)) (e : List Nat × Frac),
      e ∈ select_straights probs boxes →
      ∃ box ∈ boxes, e ∈ selectForBox probs box ∧ e.2 = (bestOf probs box).1) ∧
    (∀ (probs : List (List Frac)) (boxes : List (List Nat)),
      List.Chain' (fun u v : List Nat × Frac => Frac.eqv u.2 v.2 → lexLt v.1 u.1 = false)
        (rankOutputs (select_straights probs boxes))) := by
  constructor
  · intro probs boxes e he
    rcases List.mem_flatMap.1 he with ⟨box, hbox, hebox⟩
    exact ⟨box, hbox, hebox, selectForBox_snd probs box e hebox⟩
  · intro probs boxes
    apply List.Chain'.imp _ (rankOutputs_chain (select_straights probs boxes))
    intro u v huv
    intro heqv
    rcases (entryRel_iff u v).1 huv with hlt | ⟨_, hl⟩
    · rw [(Frac.eqv_iff _ _).1 heqv] at hlt
      exact absurd hlt (lt_irrefl _)
    · exact hl

theorem claim_C1_witness :
    (([0, 0, 0, 0, 2], (bestOf probs0 [0, 0, 0, 0, 2]).1) ∈
      select_straights probs0 [[0, 0, 0, 0, 2]]) ∧
    ∃ box ∈ [[0, 0, 0, 0, 2]],
      ([0, 0, 0, 0, 2], (bestOf probs0 [0, 0, 0, 0, 2]).1) ∈ selectForBox probs0 box ∧
      ((([0, 0, 0, 0, 2] : List Nat), (bestOf probs0 [0, 0, 0, 0, 2]).1) :
        List Nat × Frac).2 = (bestOf probs0 box).1 := by
  have hmem : (([0, 0, 0, 0, 2], (bestOf probs0 [0, 0, 0, 0, 2]).1) ∈
      select_straights probs0 [[0, 0, 0, 0, 2]]) := by decide
  exact ⟨hmem, claim_C1_amended.1 probs0 [[0, 0, 0, 0, 2]] _ hmem⟩

/-- Counterexample to claim C6 as stated: adjacent entries of the final
ranked output with exactly equal product scores where the first entry's
spec additive score is strictly smaller than the second's — the sort does
not use an additive score as its middle key. -/
theorem claim_C6_counterexample :
    rankOutputs (select_straights probs0 [[0, 0, 0, 0, 2], [0, 0, 0, 1, 1]]) =
      [([0, 0, 0, 0, 2], (bestOf probs0 [0, 0, 0, 0, 2]).1),
       ([0, 1, 1, 0, 0], (bestOf probs0 [0, 0, 0, 1, 1]).1)] ∧
    Frac.eqv (bestOf probs0 [0, 0, 0, 0, 2]).1 (bestOf probs0 [0, 0, 0, 1, 1]).1 ∧
    Frac.lt (spec_additive_score [0, 0, 0, 0, 2] probs0)
      (spec_additive_score [0, 1, 1, 0, 0] probs0) := by
  decide

/-- Claim C6 (amended): in the final ranked output any two adjacent
entries satisfy: the first's product score is ≥ the second's, and when
the two product scores are (value-)equal the first straight is
lexicographically ≤ the second; when scoring is not performed the output
is the enumerator's order with each box rendered as its canonical digit
string. -/
theorem claim_C6_amended :
    (∀ (probs : List (List Frac)) (boxes : List (List Nat)),
      List.Chain' (fun u v : List Nat × Frac =>
        Frac.le v.2 u.2 ∧ (Frac.eqv u.2 v.2 → lexLt v.1 u.1 = false))
        (rankOutputs (select_straights probs boxes))) ∧
    (∀ cs : ConstraintSet, runCore cs none = ((generate_boxes cs).1).map render) := by
  constructor
  · intro probs boxes
    apply List.Chain'.imp _ (rankOutputs_chain (select_straights probs boxes))
    intro u v huv
    rcases (entryRel_iff u v).1 huv with hlt | ⟨heq, hl⟩
    · constructor
      · rw [Frac.le_iff]
        exact le_of_lt hlt
      · intro heqv
        rw [(Frac.eqv_iff _ _).1 heqv] at hlt
        exact absurd hlt (lt_irrefl _)
    · constructor
      · rw [Frac.le_iff]
        exact le_of_eq heq
      · intro _
        exact hl
  · intro cs
    rfl

/-! ### Claim C5: distinct permutations and the multinomial count -/

theorem dedup_map_injOn {α β : Type} [DecidableEq α] [DecidableEq β]
    (f : α → β) (l : List α)
    (h : ∀ x ∈ l, ∀ y ∈ l, f x = f y → x = y) :
    (l.map f).dedup = l.dedup.map f := by
  induction l with
  | nil => simp
  | cons a t ih =>
    have ht : ∀ x ∈ t, ∀ y ∈ t, f x = f y → x = y := by
      intro x hx y hy
      exact h x (List.mem_cons_of_mem _ hx) y (List.mem_cons_of_mem _ hy)
    by_cases hat : a ∈ t
    · have hfa : f a ∈ t.map f := List.mem_map_of_mem f hat
      rw [List.map_cons, List.dedup_cons_of_mem hfa, List.dedup_cons_of_mem hat,
        ih ht]
    · have hfa : f a ∉ t.map f := by
        intro hmem
        rcases List.mem_map.1 hmem with ⟨y, hy, hfy⟩
        exact hat (h y (List.mem_cons_of_mem _ hy) a (List.mem_cons_self _ _)
          hfy ▸ hy)
      rw [List.map_cons, List.dedup_cons_of_not_mem hfa,
        List.dedup_cons_of_not_mem hat, ih ht, List.map_cons]

theorem count_map_injOn {α β : Type} [DecidableEq α] [DecidableEq β]
    (f : α → β) (l : List α)
    (h : ∀ x ∈ l, ∀ y ∈ l, f x = f y → x = y)
    (x : α) (hx : x ∈ l) :
    (l.map f).count (f x) = l.count x := by
  induction l with
  | nil => simp at hx
  | cons a t ih =>
    have ht : ∀ u ∈ t, ∀ v ∈ t, f u = f v → u = v := by
      intro u hu v hv
      exact h u (List.mem_cons_of_mem _ hu) v (List.mem_cons_of_mem _ hv)
    have hiff : (f a = f x) → (a = x) := fun he =>
      h a (List.mem_cons_self _ _) x hx he
    by_cases hxt : x ∈ t
    · have hrec := ih ht hxt
      by_cases he : a = x
      · simp [List.count_cons, hrec, he]
      · have hfe : ¬ f a = f x := fun hh => he (hiff hh)
        simp [List.count_cons, hrec, he, hfe]
    · have hxa : x = a := by
        rcases List.mem_cons.1 hx with he | he
        · exact he
        · exact absurd he hxt
      have h0 : t.count x = 0 := List.count_eq_zero.2 hxt
      have h0' : (t.map f).count (f x) = 0 := by
        rw [List.count_eq_zero]
        intro hmem
        rcases List.mem_map.1 hmem with ⟨y, hy, hfy⟩
        have hyx : y = x := h y (List.mem_cons_of_mem _ hy) x hx hfy
        exact hxt (hyx ▸ hy)
      rw [hxa] at h0 h0'
      simp [List.count_cons, h0, h0', hxa]

theorem map_eq_map_injOn {α β : Type} (f : α → β) :
    ∀ (p q : List α), (∀ x ∈ p, ∀ y ∈ q, f x = f y → x = y) →
      p.map f = q.map f → p = q := by
  intro p
  induction p with
  | nil =>
    intro q _ hmap
    cases q with
    | nil => rfl
    | cons b t => simp at hmap
  | cons a t ih =>
    intro q hinj hmap
    cases q with
    | nil => simp at hmap
    | cons b s =>
      simp only [List.map_cons, List.cons.injEq] at hmap
      have hab : a = b :=
        hinj a (List.mem_cons_self _ _) b (List.mem_cons_self _ _) hmap.1
      have hts : t = s := by
        apply ih s _ hmap.2
        intro x hx y hy
        exact hinj x (List.mem_cons_of_mem _ hx) y (List.mem_cons_of_mem _ hy)
      rw [hab, hts]

theorem distinctPerms_map_length (g : Nat → Nat) (l : List Nat)
    (hg : ∀ x ∈ l, ∀ y ∈ l, g x = g y → x = y) :
    (distinctPerms (l.map g)).length = (distinctPerms l).length := by
  unfold distinctPerms
  rw [← List.map_permutations']
  rw [dedup_map_injOn (List.map g) l.permutations' ?_]
  · rw [List.length_map]
  · intro p hp q hq hpq
    have hpl : ∀ x ∈ p, x ∈ l := fun x hx =>
      (List.mem_permutations'.1 hp).mem_iff.1 hx
    have hql : ∀ x ∈ q, x ∈ l := fun x hx =>
      (List.mem_permutations'.1 hq).mem_iff.1 hx
    apply map_eq_map_injOn g p q _ hpq
    intro x hx y hy
    exact hg x (hpl x hx) y (hql y hy)

theorem spec_perm_denom_map (g : Nat → Nat) (l : List Nat)
    (hg : ∀ x ∈ l, ∀ y ∈ l, g x = g y → x = y) :
    spec_perm_denom (l.map g) = spec_perm_denom l := by
  unfold spec_perm_denom
  rw [dedup_map_injOn g l hg, List.map_map]
  apply congrArg
  apply List.map_congr_left
  intro x hx
  simp only [Function.comp]
  rw [count_map_injOn g l hg x (List.mem_dedup.1 hx)]

theorem relabel_facts (l pat : List Nat) (g : Nat → Nat)
    (hg : ∀ x ∈ l, ∀ y ∈ l, g x = g y → x = y)
    (hmap : l.map g = pat) :
    (distinctPerms l).length = (distinctPerms pat).length ∧
      spec_perm_denom l = spec_perm_denom pat := by
  rw [← hmap]
  exact ⟨(distinctPerms_map_length g l hg).symm, (spec_perm_denom_map g l hg).symm⟩

theorem rankOf_injOn (a b c d e : Nat) :
    ∀ x ∈ [a, b, c, d, e], ∀ y ∈ [a, b, c, d, e],
      rankOf a b c d e x = rankOf a b c d e y → x = y := by
  have hchar : ∀ z, (rankOf a b c d e z = 0 → z = a) ∧
      (rankOf a b c d e z = 1 → z = b) ∧
      (rankOf a b c d e z = 2 → z = c) ∧
      (rankOf a b c d e z = 3 → z = d) ∧
      (rankOf a b c d e z = 4 → z ≠ a ∧ z ≠ b ∧ z ≠ c ∧ z ≠ d) := by
    intro z
    unfold rankOf
    split_ifs <;> simp_all
  have hrange : ∀ z, rankOf a b c d e z = 0 ∨ rankOf a b c d e z = 1 ∨
      rankOf a b c d e z = 2 ∨ rankOf a b c d e z = 3 ∨
      rankOf a b c d e z = 4 := by
    intro z
    unfold rankOf
    split_ifs <;> simp
  intro x hx y hy hxy
  simp only [List.mem_cons, List.not_mem_nil, or_false] at hx hy
  rcases hrange x with h | h | h | h | h
  · rw [(hchar x).1 h, (hchar y).1 (hxy.symm.trans h)]
  · rw [(hchar x).2.1 h, (hchar y).2.1 (hxy.symm.trans h)]
  · rw [(hchar x).2.2.1 h, (hchar y).2.2.1 (hxy.symm.trans h)]
  · rw [(hchar x).2.2.2.1 h, (hchar y).2.2.2.1 (hxy.symm.trans h)]
  · obtain ⟨hxa, hxb, hxc, hxd⟩ := (hchar x).2.2.2.2 h
    obtain ⟨hya, hyb, hyc, hyd⟩ := (hchar y).2.2.2.2 (hxy.symm.trans h)
    have hxe : x = e := by tauto
    have hye : y = e := by tauto
    rw [hxe, hye]

/-- Claim C5: for every sorted 5-digit box, the list of permutations the
scorer evaluates has no duplicates, contains exactly the digit sequences
that are rearrangements of the box, and its length times the product of
the factorials of the digit multiplicities is 120 = 5!, i.e. the length
is 5! divided by that product. -/
theorem claim_C5 (box : List Nat) (hlen : box.length = 5)
    (hsort : List.Sorted (fun u v => u ≤ v) box) :
    (distinctPerms box).Nodup ∧
    (∀ p, p ∈ distinctPerms box ↔ List.Perm p box) ∧
    (distinctPerms box).length * spec_perm_denom box = 120 ∧
    (distinctPerms box).length = 120 / spec_perm_denom box := by
  have hnd : (distinctPerms box).Nodup := by
    unfold distinctPerms
    exact List.nodup_dedup _
  have hmem : ∀ p, p ∈ distinctPerms box ↔ List.Perm p box := by
    intro p
    unfold distinctPerms
    rw [List.mem_dedup]
    exact List.mem_permutations'
  have hkey : (distinctPerms box).length * spec_perm_denom box = 120 ∧
      (distinctPerms box).length = 120 / spec_perm_denom box := by
    rcases box with _ | ⟨a, _ | ⟨b, _ | ⟨c, _ | ⟨d, _ | ⟨e, _ | ⟨f, t⟩⟩⟩⟩⟩⟩
    all_goals try (exfalso; simp only [List.length_cons, List.length_nil] at hlen; omega)
    have hs : a ≤ b ∧ b ≤ c ∧ c ≤ d ∧ d ≤ e := by
      simp only [List.sorted_cons, List.mem_cons, List.not_mem_nil, or_false,
        forall_eq_or_imp, forall_eq, List.sorted_nil, and_true] at hsort
      exact ⟨hsort.1.1, hsort.2.1.1, hsort.2.2.1.1, hsort.2.2.2.1⟩
    by_cases hab : a = b <;> by_cases hbc : b = c <;>
      by_cases hcd : c = d <;> by_cases hde : d = e
    · subst hab
      subst hbc
      subst hcd
      subst hde
      obtain ⟨hL, hP⟩ := relabel_facts [a, a, a, a, a] [0, 0, 0, 0, 0]
        (rankOf a a a a a) (rankOf_injOn a a a a a)
        (by simp [rankOf])
      have hN : (distinctPerms [0, 0, 0, 0, 0]).length = 1 := by decide
      have hM : spec_perm_denom [0, 0, 0, 0, 0] = 120 := by decide
      rw [hL, hP, hN, hM]
      exact ⟨by norm_num, by norm_num⟩
    · subst hab
      subst hbc
      subst hcd
      obtain ⟨hL, hP⟩ := relabel_facts [a, a, a, a, e] [0, 0, 0, 0, 4]
        (rankOf a a a a e) (rankOf_injOn a a a a e)
        (by
        have hne1 : e ≠ a := by omega
        simp [rankOf, hne1])
      have hN : (distinctPerms [0, 0, 0, 0, 4]).length = 5 := by decide
      have hM : spec_perm_denom [0, 0, 0, 0, 4] = 24 := by decide
      rw [hL, hP, hN, hM]
      exact ⟨by norm_num, by norm_num⟩
    · subst hab
      subst hbc
      subst hde
      obtain ⟨hL, hP⟩ := relabel_facts [a, a, a, d, d] [0, 0, 0, 3, 3]
        (rankOf a a a d d) (rankOf_injOn a a a d d)
        (by
        have hne1 : d ≠ a := by omega
        simp [rankOf, hne1])
      have hN : (distinctPerms [0, 0, 0, 3, 3]).length = 10 := by decide
      have hM : spec_perm_denom [0, 0, 0, 3, 3] = 12 := by decide
      rw [hL, hP, hN, hM]
      exact ⟨by norm_num, by norm_num⟩
    · subst hab
      subst hbc
      obtain ⟨hL, hP⟩ := relabel_facts [a, a, a, d, e] [0, 0, 0, 3, 4]
        (rankOf a a a d e) (rankOf_injOn a a a d e)
        (by
        have hne1 : d ≠ a := by omega
        have hne2 : e ≠ a := by omega
        have hne3 : e ≠ d := by omega
        simp [rankOf, hne1, hne2, hne3])
      have hN : (distinctPerms [0, 0, 0, 3, 4]).length = 20 := by decide
      have hM : spec_perm_denom [0, 0, 0, 3, 4] = 6 := by decide
      rw [hL, hP, hN, hM]
      exact ⟨by norm_num, by norm_num⟩
    · subst hab
      subst hcd
      subst hde
      obtain ⟨hL, hP⟩ := relabel_facts [a, a, c, c, c] [0, 0, 2, 2, 2]
        (rankOf a a c c c) (rankOf_injOn a a c c c)
        (by
        have hne1 : c ≠ a := by omega
        simp [rankOf, hne1])
      have hN : (distinctPerms [0, 0, 2, 2, 2]).length = 10 := by decide
      have hM : spec_perm_denom [0, 0, 2, 2, 2] = 12 := by decide
      rw [hL, hP, hN, hM]
      exact ⟨by norm_num, by norm_num⟩
    · subst hab
      subst hcd
      obtain ⟨hL, hP⟩ := relabel_facts [a, a, c, c, e] [0, 0, 2, 2, 4]
        (rankOf a a c c e) (rankOf_injOn a a c c e)
        (by
        have hne1 : c ≠ a := by omega
        have hne2 : e ≠ a := by omega
        have hne3 : e ≠ c := by omega
        simp [rankOf, hne1, hne2, hne3])
      have hN : (distinctPerms [0, 0, 2, 2, 4]).length = 30 := by decide
      have hM : spec_perm_denom [0, 0, 2, 2, 4] = 4 := by decide
      rw [hL, hP, hN, hM]
      exact ⟨by norm_num, by norm_num⟩
    · subst hab
      subst hde
      obtain ⟨hL, hP⟩ := relabel_facts [a, a, c, d, d] [0, 0, 2, 3, 3]
        (rankOf a a c d d) (rankOf_injOn a a c d d)
        (by
        have hne1 : c ≠ a := by omega
        have hne2 : d ≠ a := by omega
        have hne3 : d ≠ c := by omega
        simp [rankOf, hne1, hne2, hne3])
      have hN : (distinctPerms [0, 0, 2, 3, 3]).length = 30 := by decide
      have hM : spec_perm_denom [0, 0, 2, 3, 3] = 4 := by decide
      rw [hL, hP, hN, hM]
      exact ⟨by norm_num, by norm_num⟩
    · subst hab
      obtain ⟨hL, hP⟩ := relabel_facts [a, a, c, d, e] [0, 0, 2, 3, 4]
        (rankOf a a c d e) (rankOf_injOn a a c d e)
        (by
        have hne1 : c ≠ a := by omega
        have hne2 : d ≠ a := by omega
        have hne3 : d ≠ c := by omega
        have hne4 : e ≠ a := by omega
        have hne5 : e ≠ c := by omega
        have hne6 : e ≠ d := by omega
        simp [rankOf, hne1, hne2, hne3, hne4, hne5, hne6])
      have hN : (distinctPerms [0, 0, 2, 3, 4]).length = 60 := by decide
      have hM : spec_perm_denom [0, 0, 2, 3, 4] = 2 := by decide
      rw [hL, hP, hN, hM]
      exact ⟨by norm_num, by norm_num⟩
    · subst hbc
      subst hcd
      subst hde
      obtain ⟨hL, hP⟩ := relabel_facts [a, b, b, b, b] [0, 1, 1, 1, 1]
        (rankOf a b b b b) (rankOf_injOn a b b b b)
        (by
        have hne1 : b ≠ a := by omega
        simp [rankOf, hne1])
      have hN : (distinctPerms [0, 1, 1, 1, 1]).length = 5 := by decide
      have hM : spec_perm_denom [0, 1, 1, 1, 1] = 24 := by decide
      rw [hL, hP, hN, hM]
      exact ⟨by norm_num, by norm_num⟩
    · subst hbc
      subst hcd
      obtain ⟨hL, hP⟩ := relabel_facts [a, b, b, b, e] [0, 1, 1, 1, 4]
        (rankOf a b b b e) (rankOf_injOn a b b b e)
        (by
        have hne1 : b ≠ a := by omega
        have hne2 : e ≠ a := by omega
        have hne3 : e ≠ b := by omega
        simp [rankOf, hne1, hne2, hne3])
      have hN : (distinctPerms [0, 1, 1, 1, 4]).length = 20 := by decide
      have hM : spec_perm_denom [0, 1, 1, 1, 4] = 6 := by decide
      rw [hL, hP, hN, hM]
      exact ⟨by norm_num, by norm_num⟩
    · subst hbc
      subst hde
      obtain ⟨hL, hP⟩ := relabel_facts [a, b, b, d, d] [0, 1, 1, 3, 3]
        (rankOf a b b d d) (rankOf_injOn a b b d d)
        (by
        have hne1 : b ≠ a := by omega
        have hne2 : d ≠ a := by omega
        have hne3 : d ≠ b := by omega
        simp [rankOf, hne1, hne2, hne3])
      have hN : (distinctPerms [0, 1, 1, 3, 3]).length = 30 := by decide
      have hM : spec_perm_denom [0, 1, 1, 3, 3] = 4 := by decide
      rw [hL, hP, hN, hM]
      exact ⟨by norm_num, by norm_num⟩
    · subst hbc
      obtain ⟨hL, hP⟩ := relabel_facts [a, b, b, d, e] [0, 1, 1, 3, 4]
        (rankOf a b b d e) (rankOf_injOn a b b d e)
        (by
        have hne1 : b ≠ a := by omega
        have hne2 : d ≠ a := by omega
        have hne3 : d ≠ b := by omega
        have hne4 : e ≠ a := by omega
        have hne5 : e ≠ b := by omega
        have hne6 : e ≠ d := by omega
        simp [rankOf, hne1, hne2, hne3, hne4, hne5, hne6])
      have hN : (distinctPerms [0, 1, 1, 3, 4]).length = 60 := by decide
      have hM : spec_perm_denom [0, 1, 1, 3, 4] = 2 := by decide
      rw [hL, hP, hN, hM]
      exact ⟨by norm_num, by norm_num⟩
    · subst hcd
      subst hde
      obtain ⟨hL, hP⟩ := relabel_facts [a, b, c, c, c] [0, 1, 2, 2, 2]
        (rankOf a b c c c) (rankOf_injOn a b c c c)
        (by
        have hne1 : b ≠ a := by omega
        have hne2 : c ≠ a := by omega
        have hne3 : c ≠ b := by omega
        simp [rankOf, hne1, hne2, hne3])
      have hN : (distinctPerms [0, 1, 2, 2, 2]).length = 20 := by decide
      have hM : spec_perm_denom [0, 1, 2, 2, 2] = 6 := by decide
      rw [hL, hP, hN, hM]
      exact ⟨by norm_num, by norm_num⟩
    · subst hcd
      obtain ⟨hL, hP⟩ := relabel_facts [a, b, c, c, e] [0, 1, 2, 2, 4]
        (rankOf a b c c e) (rankOf_injOn a b c c e)
        (by
        have hne1 : b ≠ a := by omega
        have hne2 : c ≠ a := by omega
        have hne3 : c ≠ b := by omega
        have hne4 : e ≠ a := by omega
        have hne5 : e ≠ b := by omega
        have hne6 : e ≠ c := by omega
        simp [rankOf, hne1, hne2, hne3, hne4, hne5, hne6])
      have hN : (distinctPerms [0, 1, 2, 2, 4]).length = 60 := by decide
      have hM : spec_perm_denom [0, 1, 2, 2, 4] = 2 := by decide
      rw [hL, hP, hN, hM]
      exact ⟨by norm_num, by norm_num⟩
    · subst hde
      obtain ⟨hL, hP⟩ := relabel_facts [a, b, c, d, d] [0, 1, 2, 3, 3]
        (rankOf a b c d d) (rankOf_injOn a b c d d)
        (by
        have hne1 : b ≠ a := by omega
        have hne2 : c ≠ a := by omega
        have hne3 : c ≠ b := by omega
        have hne4 : d ≠ a := by omega
        have hne5 : d ≠ b := by omega
        have hne6 : d ≠ c := by omega
        simp [rankOf, hne1, hne2, hne3, hne4, hne5, hne6])
      have hN : (distinctPerms [0, 1, 2, 3, 3]).length = 60 := by decide
      have hM : spec_perm_denom [0, 1, 2, 3, 3] = 2 := by decide
      rw [hL, hP, hN, hM]
      exact ⟨by norm_num, by norm_num⟩
    · obtain ⟨hL, hP⟩ := relabel_facts [a, b, c, d, e] [0, 1, 2, 3, 4]
        (rankOf a b c d e) (rankOf_injOn a b c d e)
        (by
        have hne1 : b ≠ a := by omega
        have hne2 : c ≠ a := by omega
        have hne3 : c ≠ b := by omega
        have hne4 : d ≠ a := by omega
        have hne5 : d ≠ b := by omega
        have hne6 : d ≠ c := by omega
        have hne7 : e ≠ a := by omega
        have hne8 : e ≠ b := by omega
        have hne9 : e ≠ c := by omega
        have hne10 : e ≠ d := by omega
        simp [rankOf, hne1, hne2, hne3, hne4, hne5, hne6, hne7, hne8, hne9, hne10])
      have hN : (distinctPerms [0, 1, 2, 3, 4]).length = 120 := by decide
      have hM : spec_perm_denom [0, 1, 2, 3, 4] = 1 := by decide
      rw [hL, hP, hN, hM]
      exact ⟨by norm_num, by norm_num⟩
  exact ⟨hnd, hmem, hkey⟩

theorem claim_C5_witness :
    (distinctPerms [1, 1, 2, 3, 4]).length * spec_perm_denom [1, 1, 2, 3, 4] = 120 ∧
    (distinctPerms [2, 2, 2, 2, 2]).length = 120 / spec_perm_denom [2, 2, 2, 2, 2] ∧
    (distinctPerms [1, 1, 2, 3, 4]).length = 60 ∧
    (distinctPerms [2, 2, 2, 2, 2]).length = 1 := by
  refine ⟨(claim_C5 [1, 1, 2, 3, 4] (by decide) (by decide)).2.2.1,
    (claim_C5 [2, 2, 2, 2, 2] (by decide) (by decide)).2.2.2, by decide, by decide⟩
